import Mathlib

/-!
# Verification of the blazegraph-io document pipeline

Shallow embedding of the core of `blazegraph-core` (XHTML text-element
extraction, section detection with contextual hierarchy, spatial
clustering, graph building, breadcrumb computation, flat serialization)
together with proofs and refutations of the specification's claims.

Modelling conventions:
* Rust `f32` values (font sizes, coordinates) are modelled as exact
  rationals `ℚ`; all comparisons in the embedded code are order/equality
  comparisons and subtraction, which agree with `f32` on the small dyadic
  values used in the witnesses.
* Rust `HashMap` iteration (only relevant in paragraph grouping) is
  modelled by first-occurrence key order; every statement proved about it
  is invariant under the enumeration order.
* `Vec` push/pop stacks are modelled as Lean lists with the top at the
  **end** of the list.
* String lengths (`str::len`) are UTF-8 byte lengths (`String.utf8ByteSize`).
-/

set_option linter.unusedVariables false
set_option linter.unnecessarySeqFocus false

namespace Blazegraph

/-! ## Text helpers -/

/-- Does `p` occur as a contiguous sub-list of `s`?  (Helper for modelling
Rust `str::contains` with a string pattern.) -/
def listHasSub (p : List Char) : List Char → Bool
  | [] => p.isEmpty
  | c :: rest => p.isPrefixOf (c :: rest) || listHasSub p rest

/-- Models Rust `str::contains(pat)` for a string pattern. -/
def containsSubstr (s pat : String) : Bool := listHasSub pat.data s.data

/-- Models Rust `str::trim`: drop leading and trailing whitespace.
(Structural implementation over the character list, so that it evaluates
inside the kernel; agrees with `String.trim`.) -/
def trimString (s : String) : String :=
  ⟨((s.data.dropWhile Char.isWhitespace).reverse.dropWhile Char.isWhitespace).reverse⟩

/-- Models Rust `str::to_lowercase` (structural implementation over the
character list, so that it evaluates inside the kernel; agrees with
`String.toLower` on the ASCII inputs these rules compare against). -/
def toLowerString (s : String) : String := ⟨s.data.map Char.toLower⟩

/-! ## Core data types (types.rs) -/

/-- `BoundingBox` from types.rs; `f32` coordinates modelled as rationals. -/
structure BoundingBox where
  x : ℚ
  y : ℚ
  width : ℚ
  height : ℚ
  deriving DecidableEq, Repr

/-- `FontClass` from types.rs. -/
structure FontClass where
  className : String
  fontFamily : String
  fontSize : ℚ
  fontStyle : String
  fontWeight : String
  color : String
  deriving DecidableEq, Repr

/-- `BookmarkSection` from types.rs. -/
structure BookmarkSection where
  title : String
  order : Nat
  deriving DecidableEq, Repr

/-- `PdfTextElement` from types.rs. -/
structure PdfTextElement where
  text : String
  styleInfo : FontClass
  boundingBox : BoundingBox
  pageNumber : Nat
  paragraphNumber : Nat
  lineNumber : Nat
  segmentNumber : Nat
  readingOrder : Nat
  bookmarkMatch : Option BookmarkSection
  tokenCount : Nat
  deriving DecidableEq, Repr

/-- `ParsedElementType` from types.rs. -/
inductive ParsedElementType where
  | Section
  | Paragraph
  | List
  | ListItem
  deriving DecidableEq, Repr

/-- `ParsedPdfElement` from types.rs. -/
structure ParsedPdfElement where
  elementType : ParsedElementType
  text : String
  hierarchyLevel : Nat
  position : Nat
  styleInfo : FontClass
  boundingBox : BoundingBox
  pageNumber : Nat
  paragraphNumber : Nat
  readingOrder : Nat
  bookmarkMatch : Option BookmarkSection
  tokenCount : Nat
  deriving DecidableEq, Repr

/-! ## XHTML parser input model (xhtml_parser.rs)

The regex layer of `xhtml_parser.rs` decomposes the XHTML string into page
divs, paragraphs inside a page, and spans inside a paragraph, with the
span attributes captured as strings.  The input is modelled as that
decomposition.  The `data-bbox` attribute is modelled after the comma
split and the per-field `f32` parse (`none` = the field failed to parse);
`data-line` / `data-segment` likewise carry the result of `parse::<u32>()`
(`unwrap_or(0)` is applied at the use site, as in the source). -/

/-- One `<span>` as matched by `SPAN_REGEX`. -/
structure SpanData where
  className : String
  dataBbox : List (Option ℚ)
  dataLine : Option Nat
  dataSegment : Option Nat
  text : String
  deriving DecidableEq, Repr

/-- One `<p>` as matched by `PARAGRAPH_REGEX`. -/
structure ParagraphData where
  spans : List SpanData
  deriving DecidableEq, Repr

/-- One `<div class="page" ...>` as matched by `PAGE_REGEX`.  The
`data-page` attribute is matched by `[^>]*` but never captured; it is kept
in the model to state that the parser ignores it. -/
structure PageData where
  dataPage : String
  paragraphs : List ParagraphData
  deriving DecidableEq, Repr

/-- `StyleData` from types.rs; the `HashMap` is modelled as an association
list (lookup by key only). -/
structure StyleData where
  fontClasses : List (String × FontClass)
  deriving DecidableEq, Repr

/-- `BookmarkData` from types.rs. -/
structure BookmarkData where
  sections : List BookmarkSection
  deriving DecidableEq, Repr

/-- The decomposed XHTML document fed to `extract_text_elements`. -/
structure XhtmlInput where
  pages : List PageData
  styleData : StyleData
  bookmarkData : Option BookmarkData
  deriving DecidableEq, Repr

/-! ## XHTML parser functions (xhtml_parser.rs) -/

/-- `fallback_font` from xhtml_parser.rs. -/
def fallbackFont (fontClassName : String) : FontClass :=
  { className := fontClassName
    fontFamily := "unknown"
    fontSize := 12
    fontStyle := "normal"
    fontWeight := "normal"
    color := "#000000" }

/-- `estimate_token_count` from xhtml_parser.rs: `text.len() / 4` on the
UTF-8 byte length. -/
def estimateTokenCount (text : String) : Nat := text.utf8ByteSize / 4

/-- Style lookup in `extract_spans_from_paragraph`:
`style_data.font_classes.get(name)` with the fallback. -/
def resolveFontClass (styleData : StyleData) (fontClassName : String) : FontClass :=
  match styleData.fontClasses.find? (fun p => p.1 == fontClassName) with
  | some p => p.2
  | none => fallbackFont fontClassName

/-- Bounding-box parsing in `extract_spans_from_paragraph`:
`parts.len() == 4` and all four fields parse as `f32`. -/
def parseBbox : List (Option ℚ) → Option BoundingBox
  | [some x, some y, some w, some h] =>
      some { x := x, y := y, width := w, height := h }
  | _ => none

/-- `extract_spans_from_paragraph` from xhtml_parser.rs: for each span,
trim the text, drop empty runs, drop runs with a malformed bounding box,
resolve the font class, match bookmarks, and pre-compute the token count.
`reading_order` is 0 here and assigned later during spatial sorting. -/
def extractSpansFromParagraph (paragraphSpans : List SpanData)
    (pageNumber paragraphNumber : Nat) (styleData : StyleData)
    (bookmarkSections : List BookmarkSection) : List PdfTextElement :=
  paragraphSpans.foldl (fun acc sp =>
    let textContent := trimString sp.text
    if textContent.data.isEmpty then acc
    else
      match parseBbox sp.dataBbox with
      | none => acc
      | some bbox =>
          acc ++ [{ text := textContent
                    styleInfo := resolveFontClass styleData sp.className
                    boundingBox := bbox
                    pageNumber := pageNumber
                    paragraphNumber := paragraphNumber
                    lineNumber := sp.dataLine.getD 0
                    segmentNumber := sp.dataSegment.getD 0
                    readingOrder := 0
                    bookmarkMatch :=
                      bookmarkSections.find? (fun s => trimString s.title == textContent)
                    tokenCount := estimateTokenCount textContent }]) []

/-- The within-page spatial order used by `extract_text_elements`:
`y` ascending (`total_cmp`), ties by `x` ascending. -/
def spatialLe (a b : PdfTextElement) : Prop :=
  a.boundingBox.y < b.boundingBox.y ∨
    (a.boundingBox.y = b.boundingBox.y ∧ a.boundingBox.x ≤ b.boundingBox.x)

instance : DecidableRel spatialLe := fun a b => by
  unfold spatialLe; infer_instance

instance : IsTotal PdfTextElement spatialLe where
  total a b := by
    rcases lt_trichotomy a.boundingBox.y b.boundingBox.y with h | h | h
    · exact Or.inl (Or.inl h)
    · rcases le_total a.boundingBox.x b.boundingBox.x with hx | hx
      · exact Or.inl (Or.inr ⟨h, hx⟩)
      · exact Or.inr (Or.inr ⟨h.symm, hx⟩)
    · exact Or.inr (Or.inl h)

instance : IsTrans PdfTextElement spatialLe where
  trans a b c hab hbc := by
    rcases hab with h1 | ⟨h1, h1x⟩
    · rcases hbc with h2 | ⟨h2, _⟩
      · exact Or.inl (h1.trans h2)
      · exact Or.inl (h2 ▸ h1)
    · rcases hbc with h2 | ⟨h2, h2x⟩
      · exact Or.inl (h1 ▸ h2)
      · exact Or.inr ⟨h1.trans h2, h1x.trans h2x⟩

/-- Reading-order assignment loop in `extract_text_elements`: elements get
consecutive values starting at `start`. -/
def assignRO : Nat → List PdfTextElement → List PdfTextElement
  | _, [] => []
  | n, e :: rest => { e with readingOrder := n } :: assignRO (n + 1) rest

/-- The paragraph loop body of `extract_text_elements`: extract the spans
of one paragraph and advance the global paragraph counter. -/
def extractParagraphStep (styleData : StyleData) (bookmarkSections : List BookmarkSection)
    (pageNumber : Nat) (pe : List PdfTextElement × Nat) (para : ParagraphData) :
    List PdfTextElement × Nat :=
  (pe.1 ++ extractSpansFromParagraph para.spans pageNumber pe.2 styleData bookmarkSections,
   pe.2 + 1)

/-- The page loop body of `extract_text_elements`.  State:
`(elements so far, page index, global paragraph counter, global reading order)`. -/
def extractPageStep (styleData : StyleData) (bookmarkSections : List BookmarkSection)
    (st : List PdfTextElement × Nat × Nat × Nat) (page : PageData) :
    List PdfTextElement × Nat × Nat × Nat :=
  let acc := st.1
  let pageIdx := st.2.1
  let paraNo := st.2.2.1
  let ro := st.2.2.2
  let pageNumber := pageIdx + 1
  let extracted := page.paragraphs.foldl
    (extractParagraphStep styleData bookmarkSections pageNumber) ([], paraNo)
  let sorted := List.insertionSort spatialLe extracted.1
  (acc ++ assignRO ro sorted, pageIdx + 1, extracted.2, ro + sorted.length)

/-- `extract_text_elements` from xhtml_parser.rs: iterate pages in
document order (1-based positional page number), extract spans paragraph
by paragraph with a global paragraph counter, sort each page spatially,
and assign a global reading order.  The source's `sort_unstable_by` is
modelled by a stable sort with the same comparator; the two agree except
possibly in the relative order of runs tying on both `y` and `x`. -/
def extractTextElements (x : XhtmlInput) : List PdfTextElement :=
  let bookmarkSections := (x.bookmarkData.map (·.sections)).getD []
  (x.pages.foldl (extractPageStep x.styleData bookmarkSections) ([], 0, 0, 0)).1

/-! ### Claim-side description of the parser output (spec §4.1)

`specExtractTextElements` renders the specification's output contract
directly: for each page (1-based positional index) the surviving runs of
its paragraphs, sorted within the page by `y` then `x`; the page blocks
concatenated in document order; reading order assigned as consecutive
indices over the whole sequence. -/

/-- One span's surviving run, if any: non-empty after trimming and with a
well-formed bounding box. -/
def spanToElem (pageNumber paragraphNumber : Nat) (styleData : StyleData)
    (bookmarkSections : List BookmarkSection) (sp : SpanData) : Option PdfTextElement :=
  let textContent := trimString sp.text
  if textContent.data.isEmpty then none
  else
    (parseBbox sp.dataBbox).map (fun bbox =>
      { text := textContent
        styleInfo := resolveFontClass styleData sp.className
        boundingBox := bbox
        pageNumber := pageNumber
        paragraphNumber := paragraphNumber
        lineNumber := sp.dataLine.getD 0
        segmentNumber := sp.dataSegment.getD 0
        readingOrder := 0
        bookmarkMatch := bookmarkSections.find? (fun s => trimString s.title == textContent)
        tokenCount := estimateTokenCount textContent })

/-- The surviving runs of a page's paragraphs, in document order, with
globally numbered paragraphs starting at `paragraphNo`. -/
def specParagraphRuns (styleData : StyleData) (bookmarkSections : List BookmarkSection)
    (pageNumber : Nat) : Nat → List ParagraphData → List PdfTextElement
  | _, [] => []
  | paragraphNo, para :: rest =>
      extractSpansFromParagraph para.spans pageNumber paragraphNo styleData bookmarkSections ++
        specParagraphRuns styleData bookmarkSections pageNumber (paragraphNo + 1) rest

/-- The per-page blocks: page `pageIdx` (0-based) holds its surviving
runs sorted by `y` then `x`, and is stamped with page number
`pageIdx + 1`. -/
def specPageBlocks (styleData : StyleData) (bookmarkSections : List BookmarkSection) :
    Nat → Nat → List PageData → List (List PdfTextElement)
  | _, _, [] => []
  | pageIdx, paragraphNo, page :: rest =>
      List.insertionSort spatialLe
          (specParagraphRuns styleData bookmarkSections (pageIdx + 1) paragraphNo page.paragraphs) ::
        specPageBlocks styleData bookmarkSections (pageIdx + 1)
          (paragraphNo + page.paragraphs.length) rest

/-- The output contract of §4.1, as one function. -/
def specExtractTextElements (x : XhtmlInput) : List PdfTextElement :=
  let bookmarkSections := (x.bookmarkData.map (·.sections)).getD []
  assignRO 0 (specPageBlocks x.styleData bookmarkSections 0 0 x.pages).flatten

/-- The number of non-empty runs of an input (malformed bounding boxes
included) — what claim C5 says the output consists of. -/
def nonEmptyRunCount (x : XhtmlInput) : Nat :=
  ((x.pages.map (fun page =>
    (page.paragraphs.map (fun para =>
      (para.spans.filter (fun sp => !(trimString sp.text).data.isEmpty)).length)).sum)).sum)

/-- Two parser inputs that differ at most in the `data-page` attribute
values of their page divs (claim C9). -/
def eqUpToDataPage (a b : XhtmlInput) : Prop :=
  a.styleData = b.styleData ∧ a.bookmarkData = b.bookmarkData ∧
    a.pages.map (fun p => p.paragraphs) = b.pages.map (fun p => p.paragraphs)

instance : DecidablePred (fun p : XhtmlInput × XhtmlInput => eqUpToDataPage p.1 p.2) :=
  fun p => by unfold eqUpToDataPage; infer_instance

/-! ## Configuration (config.rs)

Only the fields read by the embedded passes are modelled. -/

/-- `SectionAndHierarchyConfig` from config.rs (fields read by
section/hierarchy detection). -/
structure SectionAndHierarchyConfig where
  minHeaderSize : ℚ
  useBoldIndicator : Bool
  boldSizeStrict : Bool
  maxDepth : Nat
  fontSizeTolerance : ℚ
  enforceMaxDepth : Bool
  startingSectionLevel : Nat
  deriving DecidableEq, Repr

/-- `ParsingConfig` from config.rs (fields read by the embedded passes). -/
structure ParsingConfig where
  sectionAndHierarchy : SectionAndHierarchyConfig
  sectionPatterns : List String
  deriving DecidableEq, Repr

/-- `DocumentAnalysis` from types.rs (the single field read by section
detection). -/
structure DocumentAnalysis where
  mostCommonFontSize : ℚ
  deriving DecidableEq, Repr

/-- `FontSizeAnalysis` from engine.rs (the fields read by section
detection). -/
structure FontSizeAnalysis where
  bodyTextSize : ℚ
  potentialHeaderSizes : List ℚ
  deriving DecidableEq, Repr

/-! ## Section detection and contextual hierarchy (section_detection.rs) -/

/-- `HierarchyContext` from section_detection.rs. -/
structure HierarchyContext where
  currentLevel : Nat
  previousSectionFontSize : Option ℚ
  levelFontSizes : List ℚ
  deriving DecidableEq, Repr

/-- `HierarchyContext::new`. -/
def HierarchyContext.init : HierarchyContext :=
  { currentLevel := 1, previousSectionFontSize := none, levelFontSizes := [] }

/-- `HierarchyContext::get_content_level`. -/
def HierarchyContext.getContentLevel (ctx : HierarchyContext) : Nat :=
  ctx.currentLevel + 1

/-- The `while self.level_font_sizes.len() < n { push(0.0) }` loops. -/
def padTo (l : List ℚ) (n : Nat) : List ℚ :=
  l ++ List.replicate (n - l.length) 0

/-- `HierarchyContext::find_appropriate_level_for_font_size`. -/
def HierarchyContext.findAppropriateLevelForFontSize (ctx : HierarchyContext)
    (fontSize : ℚ) (config : SectionAndHierarchyConfig) : Nat :=
  match ctx.levelFontSizes.findIdx?
      (fun levelFontSize => decide (|fontSize - levelFontSize| < config.fontSizeTolerance)) with
  | some levelIdx => levelIdx + 1
  | none =>
      match ctx.levelFontSizes.findIdx? (fun levelFontSize => decide (fontSize > levelFontSize)) with
      | some levelIdx => levelIdx + 1
      | none => 1

/-- `HierarchyContext::update_for_section`: returns the assigned level and
the updated context.  (Rust's out-of-range vector writes would panic; they
are unreachable in the states arising from `new` and are modelled by the
total `List.set`.) -/
def HierarchyContext.updateForSection (ctx : HierarchyContext) (fontSize : ℚ)
    (config : SectionAndHierarchyConfig) : Nat × HierarchyContext :=
  match ctx.previousSectionFontSize with
  | none =>
      (config.startingSectionLevel,
       { currentLevel := config.startingSectionLevel
         previousSectionFontSize := some fontSize
         levelFontSizes := [fontSize] })
  | some prevFont =>
      if fontSize < prevFont then
        let proposedLevel := ctx.currentLevel + 1
        if config.enforceMaxDepth && decide (proposedLevel > config.maxDepth) then
          (ctx.currentLevel,
           { ctx with
             levelFontSizes := ctx.levelFontSizes.set (ctx.currentLevel - 1) fontSize
             previousSectionFontSize := some fontSize })
        else
          (proposedLevel,
           { currentLevel := proposedLevel
             previousSectionFontSize := some fontSize
             levelFontSizes := (padTo ctx.levelFontSizes proposedLevel).set (proposedLevel - 1) fontSize })
      else if |fontSize - prevFont| < config.fontSizeTolerance then
        (ctx.currentLevel,
         { ctx with
           levelFontSizes := ctx.levelFontSizes.set (ctx.currentLevel - 1) fontSize
           previousSectionFontSize := some fontSize })
      else
        let newLevel := ctx.findAppropriateLevelForFontSize fontSize config
        (newLevel,
         { currentLevel := newLevel
           previousSectionFontSize := some fontSize
           levelFontSizes := (padTo ctx.levelFontSizes newLevel).set (newLevel - 1) fontSize })

/-- The `is_header` check of `classify_individual_element_contextual`:
the minimum-size gate, then size/boldness indicators.  (Rust's
`Vec::contains` on `f32` is exact equality, modelled by membership.) -/
def isHeaderB (cfg : ParsingConfig) (documentAnalysis : DocumentAnalysis)
    (fontSizeAnalysis : FontSizeAnalysis) (element : PdfTextElement) : Bool :=
  let fontSize := element.styleInfo.fontSize
  if fontSize < cfg.sectionAndHierarchy.minHeaderSize then false
  else
    let isBold := containsSubstr (toLowerString element.styleInfo.fontWeight) "bold"
    let boldLogic :=
      if cfg.sectionAndHierarchy.boldSizeStrict then
        cfg.sectionAndHierarchy.useBoldIndicator && isBold &&
          decide (fontSize > documentAnalysis.mostCommonFontSize)
      else
        cfg.sectionAndHierarchy.useBoldIndicator && isBold
    decide (fontSize > fontSizeAnalysis.bodyTextSize) ||
      decide (fontSize ∈ fontSizeAnalysis.potentialHeaderSizes) || boldLogic

/-- The `matches_section_pattern` check: the lowercased text contains one
of the configured section patterns. -/
def matchesSectionPatternB (cfg : ParsingConfig) (element : PdfTextElement) : Bool :=
  cfg.sectionPatterns.any (fun pattern => containsSubstr (toLowerString element.text) pattern)

/-- The `is_meaningful_header` check: a header or pattern candidate whose
trimmed text has length ≥ 3 and (length ≥ 8, or bold, or a potential
header size). -/
def isMeaningfulHeaderB (cfg : ParsingConfig) (documentAnalysis : DocumentAnalysis)
    (fontSizeAnalysis : FontSizeAnalysis) (element : PdfTextElement) : Bool :=
  let textLength := (trimString element.text).utf8ByteSize
  if isHeaderB cfg documentAnalysis fontSizeAnalysis element ||
      matchesSectionPatternB cfg element then
    decide (textLength ≥ 3) &&
      (decide (textLength ≥ 8) ||
        containsSubstr (toLowerString element.styleInfo.fontWeight) "bold" ||
        decide (element.styleInfo.fontSize ∈ fontSizeAnalysis.potentialHeaderSizes))
  else false

/-- `classify_individual_element_contextual` from section_detection.rs:
returns `((element_type, hierarchy_level), updated context)`. -/
def classifyIndividualElementContextual (cfg : ParsingConfig)
    (documentAnalysis : DocumentAnalysis) (fontSizeAnalysis : FontSizeAnalysis)
    (element : PdfTextElement) (currentElement : ParsedPdfElement)
    (ctx : HierarchyContext) : (ParsedElementType × Nat) × HierarchyContext :=
  if isMeaningfulHeaderB cfg documentAnalysis fontSizeAnalysis element then
    let res := ctx.updateForSection element.styleInfo.fontSize cfg.sectionAndHierarchy
    ((ParsedElementType.Section, res.1), res.2)
  else
    ((currentElement.elementType, ctx.getContentLevel), ctx)

/-- Claim-side promotion condition (C3, amended): an element is promoted
to `Section` iff it passes the typographic gate — `font_size ≥
min_header_size` and (size in potential header sizes, or above the body
size, or the configured bold criterion) — **or** its lowercased text
contains one of the configured section patterns; and in either case its
trimmed text is meaningful: length ≥ 3 and (length ≥ 8 or bold or size in
potential header sizes). -/
def specSectionPromotion (cfg : ParsingConfig) (documentAnalysis : DocumentAnalysis)
    (fontSizeAnalysis : FontSizeAnalysis) (element : PdfTextElement) : Prop :=
  let fontSize := element.styleInfo.fontSize
  let isBold := containsSubstr (toLowerString element.styleInfo.fontWeight) "bold" = true
  let boldCriterion :=
    if cfg.sectionAndHierarchy.boldSizeStrict then
      cfg.sectionAndHierarchy.useBoldIndicator = true ∧ isBold ∧
        fontSize > documentAnalysis.mostCommonFontSize
    else
      cfg.sectionAndHierarchy.useBoldIndicator = true ∧ isBold
  let typographic :=
    fontSize ≥ cfg.sectionAndHierarchy.minHeaderSize ∧
      (fontSize ∈ fontSizeAnalysis.potentialHeaderSizes ∨
        fontSize > fontSizeAnalysis.bodyTextSize ∨ boldCriterion)
  let patternMatch :=
    ∃ pattern ∈ cfg.sectionPatterns, containsSubstr (toLowerString element.text) pattern = true
  let textLength := (trimString element.text).utf8ByteSize
  let meaningful :=
    textLength ≥ 3 ∧
      (textLength ≥ 8 ∨ isBold ∨ fontSize ∈ fontSizeAnalysis.potentialHeaderSizes)
  (typographic ∨ patternMatch) ∧ meaningful

/-- The element built from a `PdfTextElement` when
`SectionAndHierarchyDetectionRule::apply` receives an empty input list. -/
def initialElementOf (i : Nat) (te : PdfTextElement) : ParsedPdfElement :=
  { elementType := ParsedElementType.Paragraph
    text := te.text
    hierarchyLevel := 3
    position := i
    styleInfo := te.styleInfo
    boundingBox := te.boundingBox
    pageNumber := te.pageNumber
    paragraphNumber := te.paragraphNumber
    readingOrder := te.readingOrder
    bookmarkMatch := te.bookmarkMatch
    tokenCount := te.tokenCount }

/-- The element loop body of `SectionAndHierarchyDetectionRule::apply`. -/
def sectionDetectionStep (cfg : ParsingConfig) (documentAnalysis : DocumentAnalysis)
    (fontSizeAnalysis : FontSizeAnalysis) (textElements : List PdfTextElement)
    (st : List ParsedPdfElement × HierarchyContext) (element : ParsedPdfElement) :
    List ParsedPdfElement × HierarchyContext :=
  match textElements.get? element.position with
  | some textElem =>
      let r := classifyIndividualElementContextual cfg documentAnalysis fontSizeAnalysis
        textElem element st.2
      (st.1 ++ [{ element with elementType := r.1.1, hierarchyLevel := r.1.2 }], r.2)
  | none =>
      (st.1 ++ [{ element with hierarchyLevel := st.2.getContentLevel }], st.2)

/-- `SectionAndHierarchyDetectionRule::apply`. -/
def sectionDetectionApply (cfg : ParsingConfig) (documentAnalysis : DocumentAnalysis)
    (fontSizeAnalysis : FontSizeAnalysis) (textElements : List PdfTextElement)
    (elements : List ParsedPdfElement) : List ParsedPdfElement :=
  let inputElements :=
    if elements.isEmpty then textElements.enum.map (fun p => initialElementOf p.1 p.2)
    else elements
  (inputElements.foldl
    (sectionDetectionStep cfg documentAnalysis fontSizeAnalysis textElements)
    ([], HierarchyContext.init)).1

/-- `RuleEngine::convert_text_elements_to_parsed` (base conversion):
skip elements with empty trimmed text, everything starts as a level-1
paragraph; `position` is the index in the original text-element list. -/
def convertTextElementsToParsed (textElements : List PdfTextElement) : List ParsedPdfElement :=
  textElements.enum.filterMap (fun p =>
    if (trimString p.2.text).data.isEmpty then none
    else some
      { elementType := ParsedElementType.Paragraph
        text := trimString p.2.text
        hierarchyLevel := 1
        position := p.1
        styleInfo := p.2.styleInfo
        boundingBox := p.2.boundingBox
        pageNumber := p.2.pageNumber
        paragraphNumber := p.2.paragraphNumber
        readingOrder := p.2.readingOrder
        bookmarkMatch := p.2.bookmarkMatch
        tokenCount := p.2.tokenCount })

/-! ## Spatial clustering (spatial_clustering.rs), paragraph-merging sub-pass -/

/-- `SpatialClusteringRule::merge_bounding_boxes`. -/
def mergeBoundingBoxes (bbox1 bbox2 : BoundingBox) : BoundingBox :=
  let minX := min bbox1.x bbox2.x
  let minY := min bbox1.y bbox2.y
  let maxX := max (bbox1.x + bbox1.width) (bbox2.x + bbox2.width)
  let maxY := max (bbox1.y + bbox1.height) (bbox2.y + bbox2.height)
  { x := minX, y := minY, width := maxX - minX, height := maxY - minY }

/-- Insert an element into its `(page_number, paragraph_number)` group,
keeping groups in first-occurrence key order (models the `HashMap`
grouping: entry order within a group is push order; the enumeration order
of groups is unspecified in the source and irrelevant to everything proved
below, since the result is sorted afterwards). -/
def insertGrouped (key : Nat × Nat) (e : ParsedPdfElement) :
    List ((Nat × Nat) × List ParsedPdfElement) → List ((Nat × Nat) × List ParsedPdfElement)
  | [] => [(key, [e])]
  | (k, g) :: rest =>
      if k = key then (k, g ++ [e]) :: rest else (k, g) :: insertGrouped key e rest

/-- The `paragraph_groups` map of `cluster_paragraphs_elements`. -/
def groupByParagraph (elements : List ParsedPdfElement) :
    List ((Nat × Nat) × List ParsedPdfElement) :=
  elements.foldl (fun acc e => insertGrouped (e.pageNumber, e.paragraphNumber) e acc) []

/-- Within-group order: by `reading_order` (Rust `sort_by_key`, stable). -/
def roLe (a b : ParsedPdfElement) : Prop := a.readingOrder ≤ b.readingOrder

instance : DecidableRel roLe := fun a b => by unfold roLe; infer_instance

instance : IsTotal ParsedPdfElement roLe where
  total a b := Nat.le_total a.readingOrder b.readingOrder

instance : IsTrans ParsedPdfElement roLe where
  trans _ _ _ hab hbc := Nat.le_trans hab hbc

/-- Final order of the merged sequence: page ascending, then reading
order ascending (Rust `sort_by`, stable). -/
def pageRoLe (a b : ParsedPdfElement) : Prop :=
  a.pageNumber < b.pageNumber ∨
    (a.pageNumber = b.pageNumber ∧ a.readingOrder ≤ b.readingOrder)

instance : DecidableRel pageRoLe := fun a b => by unfold pageRoLe; infer_instance

instance : IsTotal ParsedPdfElement pageRoLe where
  total a b := by
    rcases Nat.lt_trichotomy a.pageNumber b.pageNumber with h | h | h
    · exact Or.inl (Or.inl h)
    · rcases Nat.le_total a.readingOrder b.readingOrder with hx | hx
      · exact Or.inl (Or.inr ⟨h, hx⟩)
      · exact Or.inr (Or.inr ⟨h.symm, hx⟩)
    · exact Or.inr (Or.inl h)

instance : IsTrans ParsedPdfElement pageRoLe where
  trans a b c hab hbc := by
    rcases hab with h1 | ⟨h1, h1x⟩
    · rcases hbc with h2 | ⟨h2, _⟩
      · exact Or.inl (h1.trans h2)
      · exact Or.inl (h2 ▸ h1)
    · rcases hbc with h2 | ⟨h2, h2x⟩
      · exact Or.inl (h1 ▸ h2)
      · exact Or.inr ⟨h1.trans h2, h1x.trans h2x⟩

/-- The merge loop of `cluster_paragraphs_elements` applied to one sorted
group: fold all later elements into the first. -/
def mergeInto (first : ParsedPdfElement) (rest : List ParsedPdfElement) : ParsedPdfElement :=
  rest.foldl (fun merged element =>
    { merged with
      text := merged.text ++ " " ++ element.text
      boundingBox := mergeBoundingBoxes merged.boundingBox element.boundingBox
      tokenCount := merged.tokenCount + element.tokenCount }) first

/-- The per-group body of `cluster_paragraphs_elements`: a singleton group
passes through unchanged, a larger group is sorted by reading order and
merged into its first element.  (Groups are never empty.) -/
def mergedOfGroup : List ParsedPdfElement → List ParsedPdfElement
  | [] => []
  | [single] => [single]
  | e :: es =>
      match List.insertionSort roLe (e :: es) with
      | [] => []
      | first :: rest => [mergeInto first rest]

/-- `SpatialClusteringRule::cluster_paragraphs_elements` (paragraph
merging): group by `(page_number, paragraph_number)`, merge each group in
reading order, sort the result by `(page, reading_order)`. -/
def clusterParagraphsElements (elements : List ParsedPdfElement) : List ParsedPdfElement :=
  if elements.isEmpty then elements
  else
    let clustered := (groupByParagraph elements).foldl
      (fun acc kg => acc ++ mergedOfGroup kg.2) []
    List.insertionSort pageRoLe clustered

/-! ### Claim-side description of paragraph merging (C6, spec §4.3.2) -/

/-- Concatenation with a single space between consecutive texts. -/
def joinSpace : List String → String
  | [] => ""
  | t :: ts => ts.foldl (fun acc u => acc ++ " " ++ u) t

/-- Fold of `min` over a non-empty collection given as head and tail. -/
def minList (q : ℚ) (qs : List ℚ) : ℚ := qs.foldl min q

/-- Fold of `max` over a non-empty collection given as head and tail. -/
def maxList (q : ℚ) (qs : List ℚ) : ℚ := qs.foldl max q

/-- The tight axis-aligned union of the boxes `b :: bs`: least x/y corner
to greatest right/bottom edge. -/
def tightUnion (b : BoundingBox) (bs : List BoundingBox) : BoundingBox :=
  let xs := minList b.x (bs.map (fun c => c.x))
  let ys := minList b.y (bs.map (fun c => c.y))
  let xe := maxList (b.x + b.width) (bs.map (fun c => c.x + c.width))
  let ye := maxList (b.y + b.height) (bs.map (fun c => c.y + c.height))
  { x := xs, y := ys, width := xe - xs, height := ye - ys }

/-- C6's description of the merged element a group must contribute to the
output: members sorted by reading order, texts joined by single spaces,
tight bounding-box union, summed token counts, first member's style, and
the first member's (minimal) reading order and page. -/
def specMergedGroupInOutput (out : List ParsedPdfElement)
    (kg : (Nat × Nat) × List ParsedPdfElement) : Prop :=
  ∃ o ∈ out, ∃ first rest, List.insertionSort roLe kg.2 = first :: rest ∧
    (first :: rest).Perm kg.2 ∧
    o.text = joinSpace ((first :: rest).map (fun e => e.text)) ∧
    o.boundingBox = tightUnion first.boundingBox (rest.map (fun e => e.boundingBox)) ∧
    o.tokenCount = ((first :: rest).map (fun e => e.tokenCount)).sum ∧
    o.styleInfo = first.styleInfo ∧
    o.pageNumber = first.pageNumber ∧
    o.readingOrder = first.readingOrder ∧
    ∀ e ∈ kg.2, first.readingOrder ≤ e.readingOrder

/-- Well-formedness of the grouping state: groups non-empty, members
carry the group key, keys distinct. -/
def GroupsWF (gs : List ((Nat × Nat) × List ParsedPdfElement)) : Prop :=
  (∀ kg ∈ gs, kg.2 ≠ [] ∧ ∀ e ∈ kg.2, (e.pageNumber, e.paragraphNumber) = kg.1) ∧
    (gs.map (fun kg => kg.1)).Nodup

/-! ## Document graph (types.rs, builder.rs, graph.rs)

Node ids: the source assigns random UUIDs; they are modelled as the
deterministic indices into the node list (root = 0, the node emitted for
the i-th element group = i+1), which preserves all id equalities the code
depends on.  The `edges` map (parallel `Child`/`Parent` edge records) is
not consumed by any verified component and is omitted. -/

/-- `DocumentNode` from types.rs (semantic location inlined). -/
structure DocumentNode where
  nodeType : String
  path : String
  depth : Nat
  breadcrumbs : List String
  textOrder : Option Nat
  text : String
  tokenCount : Nat
  parent : Option Nat
  children : List Nat
  page : Option Nat
  bbox : Option BoundingBox
  deriving DecidableEq, Repr

/-- `DocumentGraph`: node map (indexed by id) plus the document title
(`document_info.document_metadata.title`, the only metadata field read by
`compute_breadcrumbs`). -/
structure DocumentGraph where
  title : Option String
  nodes : List DocumentNode
  deriving DecidableEq, Repr

/-- The Document root node created at the start of `build_graph`. -/
def rootNode : DocumentNode :=
  { nodeType := "Document"
    path := ""
    depth := 0
    breadcrumbs := []
    textOrder := none
    text := "Document"
    tokenCount := 0
    parent := none
    children := []
    page := none
    bbox := none }

/-- Node-type string of `create_node_from_group`. -/
def nodeTypeName : ParsedElementType → String
  | ParsedElementType.Section => "Section"
  | ParsedElementType.List => "List"
  | ParsedElementType.ListItem => "ListItem"
  | ParsedElementType.Paragraph => "Paragraph"

/-- `create_node_from_group` composed with the 1:1
`group_elements_into_chunks` grouping: one node per element;
`NodeContent::new` trims the text. -/
def createNodeFromGroup (e : ParsedPdfElement) (order : Nat) : DocumentNode :=
  { nodeType := nodeTypeName e.elementType
    path := ""
    depth := 0
    breadcrumbs := []
    textOrder := some order
    text := trimString e.text
    tokenCount := e.tokenCount
    parent := none
    children := []
    page := some e.pageNumber
    bbox := some e.boundingBox }

/-- `GraphBuilder::find_parent`: returns the parent id and the mutated
stack.  The stack has its top at the end; `truncate`/`pop` remove from the
end. -/
def findParent (nodeStack : List Nat) (level : Nat) (rootId : Nat) : Nat × List Nat :=
  if level ≤ 1 then (rootId, nodeStack.take 1)
  else
    let stack := nodeStack.take level
    (stack.getLast?.getD rootId, stack)

/-- `GraphBuilder::generate_hierarchical_path`.  In this model the root
node lives at index 0 of the node list (the source keeps `root_node` and a
mirrored `Document` entry in the map; both carry the same children list). -/
def generateHierarchicalPath (nodes : List DocumentNode) (parentId : Nat)
    (index : Nat) : String :=
  if parentId = 0 then
    Nat.repr (((nodes.get? 0).map (fun r => r.children.length)).getD 0 + 1)
  else
    match nodes.get? parentId with
    | some parent => parent.path ++ "." ++ Nat.repr (parent.children.length + 1)
    | none => Nat.repr (index + 1)

/-- Append `childId` to the children of node `parentId` (both the
`root_node` branch and the `get_mut` branch of the source do exactly this
in the model, since the root is an ordinary entry at index 0). -/
def pushChild (nodes : List DocumentNode) (parentId childId : Nat) : List DocumentNode :=
  match nodes.get? parentId with
  | some p => nodes.set parentId { p with children := p.children ++ [childId] }
  | none => nodes

/-- The section stack-popping loop of `build_graph` (`while top.depth >=
level pop`), on the reversed stack (head = top); a missing node breaks the
loop, as in the source. -/
def popWhileGE (nodes : List DocumentNode) (level : Nat) : List Nat → List Nat
  | [] => []
  | sid :: rest =>
      match nodes.get? sid with
      | some n => if n.depth ≥ level then popWhileGE nodes level rest else sid :: rest
      | none => sid :: rest

/-- One iteration of the element loop of `build_graph`. -/
def buildGraphStep (st : List DocumentNode × List Nat) (ie : Nat × ParsedPdfElement) :
    List DocumentNode × List Nat :=
  let nodes := st.1
  let stack := st.2
  let index := ie.1
  let e := ie.2
  let node := createNodeFromGroup e index
  let nodeId := nodes.length
  let fp := findParent stack e.hierarchyLevel 0
  let parentId := fp.1
  let stack1 := fp.2
  let finalNode :=
    { node with
      parent := some parentId
      depth := e.hierarchyLevel
      textOrder := some index
      path := generateHierarchicalPath nodes parentId index }
  let nodes1 := nodes ++ [finalNode]
  let nodes2 := pushChild nodes1 parentId nodeId
  let stack2 :=
    if e.elementType = ParsedElementType.Section then
      (popWhileGE nodes2 e.hierarchyLevel stack1.reverse).reverse ++ [nodeId]
    else stack1
  (nodes2, stack2)

/-- `DocumentGraph::propagate_breadcrumbs` (graph.rs): set this node's
breadcrumbs from the parent trail (sections append their own text), then
recurse into the children.  The source recurses on the children graph;
termination is supplied by fuel, which the callers choose large enough for
every graph the recursion terminates on. -/
def propagateBreadcrumbs : Nat → List DocumentNode → Nat → List String → List DocumentNode
  | 0, nodes, _, _ => nodes
  | fuel + 1, nodes, nodeId, parentBreadcrumbs =>
      match nodes.get? nodeId with
      | none => nodes
      | some n =>
          let nodeBreadcrumbs :=
            if n.nodeType = "Section" then parentBreadcrumbs ++ [n.text]
            else parentBreadcrumbs
          let nodes1 := nodes.set nodeId { n with breadcrumbs := nodeBreadcrumbs }
          n.children.foldl (fun ns c => propagateBreadcrumbs fuel ns c nodeBreadcrumbs) nodes1

/-- `DocumentGraph::compute_breadcrumbs` (graph.rs): root gets the
document title (when present and non-empty) as its only crumb, then the
trail is propagated top-down from the root's children. -/
def computeBreadcrumbs (g : DocumentGraph) : DocumentGraph :=
  let rootBreadcrumbs : List String :=
    match g.title with
    | some t => if t.data.isEmpty then [] else [t]
    | none => []
  let nodes1 :=
    match g.nodes.get? 0 with
    | some root => g.nodes.set 0 { root with breadcrumbs := rootBreadcrumbs }
    | none => g.nodes
  let rootChildren := ((nodes1.get? 0).map (fun r => r.children)).getD []
  { g with
    nodes := rootChildren.foldl
      (fun ns c => propagateBreadcrumbs g.nodes.length ns c rootBreadcrumbs) nodes1 }

/-- `GraphBuilder::build_graph`: emit one node per element (1:1 grouping),
wire parent/child by the hierarchy stack, then compute breadcrumbs.  The
document metadata at this point is `DocumentMetadata::default()` (no
title). -/
def buildGraph (elements : List ParsedPdfElement) : DocumentGraph :=
  let final := elements.enum.foldl buildGraphStep ([rootNode], [0])
  computeBreadcrumbs { title := none, nodes := final.1 }

/-! ### Claim-side vocabulary for graph claims (C1, C2, C7) -/

/-- A node with its breadcrumbs blanked: the projection to the fields the
breadcrumb pass never modifies. -/
def eraseBC (n : DocumentNode) : DocumentNode := { n with breadcrumbs := [] }

/-- The child-processing fold inside `propagate_breadcrumbs`. -/
def pbFold (fuel : Nat) (bc : List String) (cs : List Nat)
    (acc : List DocumentNode) : List DocumentNode :=
  cs.foldl (fun a ch => propagateBreadcrumbs fuel a ch bc) acc

/-- The parent pointer of node `i` in a node list. -/
def parentOf (nodes : List DocumentNode) (i : Nat) : Option Nat :=
  (nodes.get? i).bind (fun n => n.parent)

/-- The children list of node `i` in a node list. -/
def childrenOf (nodes : List DocumentNode) (i : Nat) : List Nat :=
  ((nodes.get? i).map (fun n => n.children)).getD []

/-- The contribution of node `i` to the breadcrumb trail: its text when it
is a Section, nothing otherwise. -/
def crumbOf (nodes : List DocumentNode) (i : Nat) : List String :=
  match nodes.get? i with
  | some n => if n.nodeType = "Section" then [n.text] else []
  | none => []

/-- One parent-to-child edge. -/
def childStep (nodes : List DocumentNode) (a b : Nat) : Prop := b ∈ childrenOf nodes a

/-- Reachability along children lists (reflexive-transitive). -/
def reaches (nodes : List DocumentNode) : Nat → Nat → Prop :=
  Relation.ReflTransGen (childStep nodes)

/-- Proper descendant: at least one child edge. -/
def descendantOf (nodes : List DocumentNode) (s d : Nat) : Prop :=
  Relation.TransGen (childStep nodes) s d

/-- Decidable well-formedness of a graph's node list (node 0 is the root):
every non-root node has a parent with a smaller index whose children list
contains it, every child entry points to a valid non-root node whose
parent pointer points back, and no children list repeats an entry. -/
def wellFormedB (nodes : List DocumentNode) : Bool :=
  !nodes.isEmpty &&
    ((List.range nodes.length).all fun j =>
      (j == 0) ||
        (match parentOf nodes j with
         | some p => decide (p < j) && decide (j ∈ childrenOf nodes p)
         | none => false)) &&
    ((List.range nodes.length).all fun p =>
      (childrenOf nodes p).all fun c =>
        decide (c < nodes.length) && decide (0 < c) &&
          decide (parentOf nodes c = some p)) &&
    ((List.range nodes.length).all fun p =>
      decide (childrenOf nodes p).Nodup)

/-- The root trail `compute_breadcrumbs` starts from: the document title
when present and non-empty. -/
def rootCrumbsOf (g : DocumentGraph) : List String :=
  match g.title with
  | some t => if t.data.isEmpty then [] else [t]
  | none => []

/-- Claim-side well-formedness of a hierarchy-level sequence (C1,
amended): tracking the height `h` of the open section chain, every level
must lie in `[1, h+1]`; sections reset the height to their level,
non-sections to `level - 1` (level 1 resets to 0). -/
def okLevels : Nat → List ParsedPdfElement → Bool
  | _, [] => true
  | h, e :: rest =>
      decide (1 ≤ e.hierarchyLevel) && decide (e.hierarchyLevel ≤ h + 1) &&
        okLevels
          (if e.elementType = ParsedElementType.Section then e.hierarchyLevel
           else e.hierarchyLevel - 1)
          rest

/-- Proof-side invariant of the `build_graph` stack loop (C1): the node
list is nonempty, the stack is the dense chain `[root, s1, ..., sh]`
whose entry at position `t` is a valid node of depth `t` (so the root at
position 0 has depth 0), and every non-root node emitted so far points to
a parent one depth level above it. -/
def InvC1 (nodes : List DocumentNode) (stack : List Nat) (h : Nat) : Prop :=
  0 < nodes.length ∧
  stack.length = h + 1 ∧
  stack.get? 0 = some 0 ∧
  (∀ t sid, stack.get? t = some sid →
    (nodes.get? sid).map (fun n => n.depth) = some t) ∧
  (∀ j node, nodes.get? j = some node → 0 < j →
    ∃ p pnode, node.parent = some p ∧ nodes.get? p = some pnode ∧
      node.depth = pnode.depth + 1)

/-! ## Flat serialization (serialization.rs) -/

/-- `FlatDocument` from types.rs. -/
structure FlatDocument where
  format : String
  chunks : List String
  deriving DecidableEq, Repr

/-- The node comparator of `to_flat_format` / `to_sorted_graph`:
`text_order` ascending with `None` (the Document root) first. -/
def textOrderLe (a b : DocumentNode) : Prop :=
  match a.textOrder, b.textOrder with
  | none, _ => True
  | some _, none => False
  | some x, some y => x ≤ y

instance : DecidableRel textOrderLe := fun a b => by
  unfold textOrderLe
  rcases a.textOrder with _ | x <;> rcases b.textOrder with _ | y <;> simp <;> infer_instance

instance : IsTotal DocumentNode textOrderLe where
  total a b := by
    unfold textOrderLe
    rcases a.textOrder with _ | x <;> rcases b.textOrder with _ | y <;> simp
    exact Nat.le_total x y

instance : IsTrans DocumentNode textOrderLe where
  trans a b c hab hbc := by
    unfold textOrderLe at *
    rcases ha : a.textOrder with _ | x <;> rcases hb : b.textOrder with _ | y <;>
      rcases hc : c.textOrder with _ | z <;> simp [ha, hb, hc] at * <;> omega

/-- `DocumentGraph::to_flat_format`: all nodes sorted by text order
(Document first), projected to their text. -/
def toFlatFormat (g : DocumentGraph) : FlatDocument :=
  { format := "flat"
    chunks := (List.insertionSort textOrderLe g.nodes).map (fun n => n.text) }

/-- A leaf of the graph: a node with no children (used to state the
claim about the flat projection). -/
def leafCount (g : DocumentGraph) : Nat :=
  (g.nodes.filter (fun n => n.children.isEmpty)).length

/-! ## Concrete fixtures used by counterexamples and witnesses -/

/-- A font class with the given size and weight. -/
def fixFont (sz : ℚ) (weight : String) : FontClass :=
  { className := "f1"
    fontFamily := "Serif"
    fontSize := sz
    fontStyle := "normal"
    fontWeight := weight
    color := "#000000" }

/-- A parsed element with the given type, level, text and position data. -/
def fixElem (t : ParsedElementType) (lvl : Nat) (txt : String)
    (pg para ro : Nat) : ParsedPdfElement :=
  { elementType := t
    text := txt
    hierarchyLevel := lvl
    position := 0
    styleInfo := fixFont 12 "normal"
    boundingBox := { x := 1, y := 2, width := 3, height := 4 }
    pageNumber := pg
    paragraphNumber := para
    readingOrder := ro
    bookmarkMatch := none
    tokenCount := 1 }

/-- A text element with the given text, font size and weight. -/
def fixTextElem (txt : String) (sz : ℚ) (weight : String) : PdfTextElement :=
  { text := txt
    styleInfo := fixFont sz weight
    boundingBox := { x := 1, y := 2, width := 3, height := 4 }
    pageNumber := 1
    paragraphNumber := 0
    lineNumber := 0
    segmentNumber := 0
    readingOrder := 0
    bookmarkMatch := none
    tokenCount := 0 }

/-- Parser input with two non-empty runs on one page, one of which has a
malformed bounding box. -/
def fixDocBadBbox : XhtmlInput :=
  { pages := [{ dataPage := "1"
                paragraphs := [{ spans :=
                  [{ className := "f1", dataBbox := [some 1, some 2, some 3, some 4],
                     dataLine := some 1, dataSegment := some 0, text := "good run" },
                   { className := "f1", dataBbox := [none, some 0, some 0, some 0],
                     dataLine := none, dataSegment := none, text := "bad run" }] }] }]
    styleData := { fontClasses := [("f1", fixFont 12 "normal")] }
    bookmarkData := none }

/-- Two-page parser input used by the parser witnesses. -/
def fixDocTwoPages : XhtmlInput :=
  { pages :=
      [{ dataPage := "7"
         paragraphs := [{ spans :=
           [{ className := "f1", dataBbox := [some 1, some 5, some 3, some 4],
              dataLine := some 1, dataSegment := some 0, text := " lower " },
            { className := "f1", dataBbox := [some 1, some 2, some 3, some 4],
              dataLine := some 1, dataSegment := some 1, text := "upper" }] }] },
       { dataPage := "3"
         paragraphs := [{ spans :=
           [{ className := "f2", dataBbox := [some 0, some 0, some 2, some 2],
              dataLine := none, dataSegment := none, text := "second page" }] }] }]
    styleData := { fontClasses := [("f1", fixFont 12 "normal")] }
    bookmarkData := none }

/-- `fixDocTwoPages` with different `data-page` attribute values. -/
def fixDocTwoPagesRenumbered : XhtmlInput :=
  { fixDocTwoPages with pages :=
      fixDocTwoPages.pages.map (fun p => { p with dataPage := "99" }) }

/-- The element extracted from the second page of `fixDocTwoPages`. -/
def fixElemPage2 : PdfTextElement :=
  { text := "second page"
    styleInfo := fallbackFont "f2"
    boundingBox := { x := 0, y := 0, width := 2, height := 2 }
    pageNumber := 2
    paragraphNumber := 1
    lineNumber := 0
    segmentNumber := 0
    readingOrder := 0
    bookmarkMatch := none
    tokenCount := 2 }

/-- The first element extracted from `fixDocTwoPages` (after the spatial
sort and reading-order assignment). -/
def fixElemUpper : PdfTextElement :=
  { text := "upper"
    styleInfo := fixFont 12 "normal"
    boundingBox := { x := 1, y := 2, width := 3, height := 4 }
    pageNumber := 1
    paragraphNumber := 0
    lineNumber := 1
    segmentNumber := 1
    readingOrder := 0
    bookmarkMatch := none
    tokenCount := 1 }

/-- A two-element graph (one section, one paragraph below it) for the
flat-projection counterexample. -/
def fixGraphTwo : DocumentGraph :=
  buildGraph [fixElem ParsedElementType.Section 1 "Head" 1 0 0,
              fixElem ParsedElementType.Paragraph 2 "Body" 1 1 1]

/-- Section-detection config with `min_header_size = 8` and the built-in
generic pattern `"chapter"`. -/
def fixCfgC3 : ParsingConfig :=
  { sectionAndHierarchy :=
      { minHeaderSize := 8
        useBoldIndicator := true
        boldSizeStrict := true
        maxDepth := 5
        fontSizeTolerance := 1
        enforceMaxDepth := true
        startingSectionLevel := 1 }
    sectionPatterns := ["chapter"] }

/-- Document analysis with body text at 12pt. -/
def fixAnalysis : DocumentAnalysis := { mostCommonFontSize := 12 }

/-- Font-size analysis with body text at 12pt and no header candidates. -/
def fixFsa : FontSizeAnalysis := { bodyTextSize := 12, potentialHeaderSizes := [] }

/-- A small-font, non-bold text element whose text contains "chapter". -/
def fixTeChapter : PdfTextElement := fixTextElem "see chapter 12" 6 "normal"

/-- A 14pt bold header-like text element. -/
def fixTeHeader : PdfTextElement := fixTextElem "Introduction" 14 "bold"

/-- Hierarchy config with font-size tolerance 2 (all sizes integral so
that every comparison is exact). -/
def fixCfgC4 : SectionAndHierarchyConfig :=
  { minHeaderSize := 8
    useBoldIndicator := true
    boldSizeStrict := true
    maxDepth := 5
    fontSizeTolerance := 2
    enforceMaxDepth := true
    startingSectionLevel := 1 }

/-- The hierarchy context after one 20pt section under `fixCfgC4`. -/
def fixCtxC4 : HierarchyContext :=
  (HierarchyContext.init.updateForSection 20 fixCfgC4).2

/-- Two same-paragraph elements in reverse reading order (C6 witness). -/
def fixClusterEls : List ParsedPdfElement :=
  [fixElem ParsedElementType.Paragraph 1 "b" 1 5 3,
   fixElem ParsedElementType.Paragraph 1 "a" 1 5 2]

/-- Config with empty section patterns (C7). -/
def fixCfgNoPat : ParsingConfig :=
  { sectionAndHierarchy := fixCfgC4, sectionPatterns := [] }

/-- A one-element text input that produces no sections (C7). -/
def fixTs1 : List PdfTextElement := [fixTextElem "plain body text" 6 "normal"]

/-- The rule-engine output for `fixTs1` under `fixCfgNoPat`. -/
def fixNoSectionEls : List ParsedPdfElement :=
  sectionDetectionApply fixCfgNoPat fixAnalysis fixFsa fixTs1
    (convertTextElementsToParsed fixTs1)

/-- The single non-root node of the graph built from `fixNoSectionEls`. -/
def fixNode1 : DocumentNode :=
  { nodeType := "Paragraph"
    path := "1"
    depth := 2
    breadcrumbs := []
    textOrder := some 0
    text := "plain body text"
    tokenCount := 0
    parent := some 0
    children := []
    page := some 1
    bbox := some { x := 1, y := 2, width := 3, height := 4 } }

/-- A single level-2 paragraph: exactly what the pipeline emits for a
sectionless document (C1 counterexample input). -/
def fixC1Els : List ParsedPdfElement :=
  [fixElem ParsedElementType.Paragraph 2 "Body" 1 0 0]

/-- A level-1 section followed by a level-2 paragraph: a level sequence
accepted by `okLevels` (C1 witness input). -/
def fixDenseEls : List ParsedPdfElement :=
  [fixElem ParsedElementType.Section 1 "Head" 1 0 0,
   fixElem ParsedElementType.Paragraph 2 "Body" 1 1 1]

/-- A well-formed three-node graph with a document title: root with one
Section child, which has one Paragraph child (C2 witness input). -/
def fixGraphTitled : DocumentGraph :=
  { title := some "Doc"
    nodes :=
      [{ rootNode with children := [1] },
       { nodeType := "Section", path := "1", depth := 1, breadcrumbs := ["stale"],
         textOrder := some 0, text := "Head", tokenCount := 1, parent := some 0,
         children := [2], page := some 1, bbox := none },
       { nodeType := "Paragraph", path := "1.1", depth := 2, breadcrumbs := [],
         textOrder := some 1, text := "Body", tokenCount := 1, parent := some 1,
         children := [], page := some 1, bbox := none }] }

/-! ## Lemmas: XHTML parser refinement -/

lemma foldl_append_toList {α β : Type} (f : β → Option α) :
    ∀ (l : List β) (init : List α),
      l.foldl (fun acc b => acc ++ (f b).toList) init = init ++ l.filterMap f := by
  intro l
  induction l with
  | nil => simp
  | cons b t ih =>
      intro init
      cases hb : f b <;> simp [List.filterMap_cons, hb, ih]

/-- The span loop of `extract_spans_from_paragraph` is the `filterMap` of
the per-span survival function. -/
lemma extractSpans_eq_filterMap (spans : List SpanData) (pageNumber paragraphNumber : Nat)
    (styleData : StyleData) (bookmarkSections : List BookmarkSection) :
    extractSpansFromParagraph spans pageNumber paragraphNumber styleData bookmarkSections =
      spans.filterMap (spanToElem pageNumber paragraphNumber styleData bookmarkSections) := by
  have h1 : extractSpansFromParagraph spans pageNumber paragraphNumber styleData bookmarkSections
      = spans.foldl (fun acc sp =>
          acc ++ (spanToElem pageNumber paragraphNumber styleData bookmarkSections sp).toList)
          [] := by
    unfold extractSpansFromParagraph
    apply List.foldl_ext
    intro acc sp _
    by_cases h : (trimString sp.text).data.isEmpty <;>
      cases hb : parseBbox sp.dataBbox <;> simp [spanToElem, h, hb]
  rw [h1, foldl_append_toList]
  simp

/-- Field values forced by a surviving span. -/
lemma spanToElem_fields {pageNumber paragraphNumber : Nat} {styleData : StyleData}
    {bookmarkSections : List BookmarkSection} {sp : SpanData} {e : PdfTextElement}
    (h : spanToElem pageNumber paragraphNumber styleData bookmarkSections sp = some e) :
    e.pageNumber = pageNumber ∧ e.paragraphNumber = paragraphNumber ∧
      e.tokenCount = estimateTokenCount e.text := by
  unfold spanToElem at h
  by_cases hemp : (trimString sp.text).data.isEmpty <;> simp [hemp] at h
  rcases h with ⟨bbox, hbb, he⟩
  subst he
  simp

/-- The paragraph loop of `extract_text_elements` produces exactly the
claim-side per-page runs, advancing the paragraph counter by the number
of paragraphs. -/
lemma paragraphFold_spec (styleData : StyleData) (bookmarkSections : List BookmarkSection)
    (pageNumber : Nat) :
    ∀ (paras : List ParagraphData) (acc : List PdfTextElement) (paragraphNo : Nat),
      paras.foldl (extractParagraphStep styleData bookmarkSections pageNumber)
          (acc, paragraphNo) =
        (acc ++ specParagraphRuns styleData bookmarkSections pageNumber paragraphNo paras,
         paragraphNo + paras.length) := by
  intro paras
  induction paras with
  | nil => intro acc pn; simp [specParagraphRuns]
  | cons p t ih =>
      intro acc pn
      simp only [List.foldl_cons, extractParagraphStep, ih, specParagraphRuns,
        List.length_cons, List.append_assoc, Prod.mk.injEq]
      exact ⟨trivial, by omega⟩

lemma assignRO_append : ∀ (l₁ l₂ : List PdfTextElement) (n : Nat),
    assignRO n (l₁ ++ l₂) = assignRO n l₁ ++ assignRO (n + l₁.length) l₂ := by
  intro l₁
  induction l₁ with
  | nil => simp [assignRO]
  | cons e t ih =>
      intro l₂ n
      have heq : n + 1 + t.length = n + (t.length + 1) := by omega
      simp only [List.cons_append, assignRO, List.length_cons, List.append_eq]
      rw [ih, heq]

lemma assignRO_length : ∀ (l : List PdfTextElement) (n : Nat),
    (assignRO n l).length = l.length := by
  intro l
  induction l with
  | nil => simp [assignRO]
  | cons e t ih => intro n; simp [assignRO, ih]

/-- The page loop of `extract_text_elements` produces exactly the
claim-side blocks with reading orders assigned sequentially. -/
lemma pagesFold_spec (styleData : StyleData) (bookmarkSections : List BookmarkSection) :
    ∀ (pages : List PageData) (acc : List PdfTextElement) (pageIdx paragraphNo ro : Nat),
      pages.foldl (extractPageStep styleData bookmarkSections) (acc, pageIdx, paragraphNo, ro) =
        (acc ++ assignRO ro
            (specPageBlocks styleData bookmarkSections pageIdx paragraphNo pages).flatten,
         pageIdx + pages.length,
         paragraphNo + (pages.map (fun p => p.paragraphs.length)).sum,
         ro + (specPageBlocks styleData bookmarkSections pageIdx paragraphNo pages).flatten.length) := by
  intro pages
  induction pages with
  | nil => intro acc pi pn ro; simp [specPageBlocks, assignRO]
  | cons pg t ih =>
      intro acc pi pn ro
      have hstep : extractPageStep styleData bookmarkSections (acc, pi, pn, ro) pg =
          (acc ++ assignRO ro (List.insertionSort spatialLe
              (specParagraphRuns styleData bookmarkSections (pi + 1) pn pg.paragraphs)),
           pi + 1, pn + pg.paragraphs.length,
           ro + (List.insertionSort spatialLe
              (specParagraphRuns styleData bookmarkSections (pi + 1) pn pg.paragraphs)).length) := by
        simp only [extractPageStep]
        rw [paragraphFold_spec]
        simp
      simp only [List.foldl_cons, hstep, ih, specPageBlocks, List.flatten_cons,
        List.length_cons, List.map_cons, List.sum_cons]
      rw [assignRO_append]
      simp only [Prod.mk.injEq, List.length_append]
      refine ⟨by simp [List.append_assoc], by omega, by omega, by omega⟩

/-- `extract_text_elements` satisfies the §4.1 output contract. -/
lemma extract_eq_spec (x : XhtmlInput) :
    extractTextElements x = specExtractTextElements x := by
  simp only [extractTextElements, specExtractTextElements]
  rw [pagesFold_spec]
  simp

lemma assignRO_get : ∀ (l : List PdfTextElement) (n k : Nat)
    (h : k < (assignRO n l).length),
    ((assignRO n l).get ⟨k, h⟩).readingOrder = n + k := by
  intro l
  induction l with
  | nil => intro n k h; simp [assignRO] at h
  | cons e t ih =>
      intro n k h
      cases k with
      | zero => simp [assignRO]
      | succ k =>
          simp only [assignRO, List.get_cons_succ]
          rw [ih]
          omega

/-- Elements of the claim-side per-page runs carry the page number they
were extracted with and the pre-computed token estimate of their text. -/
lemma mem_specParagraphRuns {styleData : StyleData}
    {bookmarkSections : List BookmarkSection} {pageNumber : Nat} :
    ∀ {paragraphNo : Nat} {paras : List ParagraphData} {e : PdfTextElement},
      e ∈ specParagraphRuns styleData bookmarkSections pageNumber paragraphNo paras →
      e.pageNumber = pageNumber ∧ e.tokenCount = estimateTokenCount e.text := by
  intro pn paras
  induction paras generalizing pn with
  | nil => intro e he; simp [specParagraphRuns] at he
  | cons p t ih =>
      intro e he
      simp only [specParagraphRuns, List.mem_append] at he
      rcases he with he | he
      · rw [extractSpans_eq_filterMap] at he
        rcases List.mem_filterMap.mp he with ⟨sp, _, hsp⟩
        obtain ⟨h1, _, h3⟩ := spanToElem_fields hsp
        exact ⟨h1, h3⟩
      · exact ih he

lemma mem_specPageBlocks_token {styleData : StyleData}
    {bookmarkSections : List BookmarkSection} :
    ∀ {pageIdx paragraphNo : Nat} {pages : List PageData} {block : List PdfTextElement},
      block ∈ specPageBlocks styleData bookmarkSections pageIdx paragraphNo pages →
      ∀ e ∈ block, e.tokenCount = estimateTokenCount e.text := by
  intro pi pn pages
  induction pages generalizing pi pn with
  | nil => intro block hb; simp [specPageBlocks] at hb
  | cons pg t ih =>
      intro block hb e he
      simp only [specPageBlocks, List.mem_cons] at hb
      rcases hb with rfl | hb
      · have hm := (List.perm_insertionSort spatialLe _).mem_iff.mp he
        exact (mem_specParagraphRuns hm).2
      · exact ih hb e he

lemma get?_specPageBlocks_pageNumber {styleData : StyleData}
    {bookmarkSections : List BookmarkSection} :
    ∀ {pageIdx paragraphNo : Nat} {pages : List PageData} {i : Nat}
      {block : List PdfTextElement},
      (specPageBlocks styleData bookmarkSections pageIdx paragraphNo pages).get? i =
          some block →
      ∀ e ∈ block, e.pageNumber = pageIdx + i + 1 := by
  intro pi pn pages
  induction pages generalizing pi pn with
  | nil => intro i block h; simp [specPageBlocks] at h
  | cons pg t ih =>
      intro i block h e he
      cases i with
      | zero =>
          simp only [specPageBlocks, List.get?_cons_zero, Option.some.injEq] at h
          subst h
          have hm := (List.perm_insertionSort spatialLe _).mem_iff.mp he
          have := (mem_specParagraphRuns hm).1
          omega
      | succ i =>
          simp only [specPageBlocks, List.get?_cons_succ] at h
          have := ih h e he
          omega

/-- Reading-order assignment changes no field except `reading_order`. -/
lemma mem_assignRO : ∀ {l : List PdfTextElement} {n : Nat} {e : PdfTextElement},
    e ∈ assignRO n l →
    ∃ e' ∈ l, e.text = e'.text ∧ e.tokenCount = e'.tokenCount ∧
      e.pageNumber = e'.pageNumber := by
  intro l
  induction l with
  | nil => intro n e he; simp [assignRO] at he
  | cons a t ih =>
      intro n e he
      simp only [assignRO, List.mem_cons] at he
      rcases he with rfl | he
      · exact ⟨a, List.mem_cons_self a t, rfl, rfl, rfl⟩
      · rcases ih he with ⟨e', he', h⟩
        exact ⟨e', List.mem_cons_of_mem _ he', h⟩

/-- `specPageBlocks` reads nothing from a page besides its paragraphs. -/
lemma specPageBlocks_congr {styleData : StyleData}
    {bookmarkSections : List BookmarkSection} :
    ∀ {a b : List PageData} {pageIdx paragraphNo : Nat},
      a.map (fun p => p.paragraphs) = b.map (fun p => p.paragraphs) →
      specPageBlocks styleData bookmarkSections pageIdx paragraphNo a =
        specPageBlocks styleData bookmarkSections pageIdx paragraphNo b := by
  intro a
  induction a with
  | nil =>
      intro b pi pn h
      cases b with
      | nil => rfl
      | cons pb tb => simp at h
  | cons pg t ih =>
      intro b pi pn h
      cases b with
      | nil => simp at h
      | cons pb tb =>
          simp only [List.map_cons, List.cons.injEq] at h
          simp only [specPageBlocks, h.1]
          rw [ih h.2]

/-! ## Claims C5, C9, C10, C8 -/

/-- C5 (amended): for every input, the parser output is, page by page in
document order, the page's non-empty runs **with well-formed bounding
boxes** sorted by bounding-box `y` then `x` (`specExtractTextElements`
renders exactly that contract), and the assigned `reading_order` values
are `0, 1, 2, …` strictly increasing across the whole output. -/
theorem C5_parser_output_contract (x : XhtmlInput) :
    extractTextElements x = specExtractTextElements x ∧
      ∀ (k : Nat) (hk : k < (extractTextElements x).length),
        ((extractTextElements x).get ⟨k, hk⟩).readingOrder = k := by
  refine ⟨extract_eq_spec x, ?_⟩
  intro k
  rw [extract_eq_spec x]
  intro hk
  simp only [specExtractTextElements] at hk ⊢
  rw [assignRO_get]
  omega

/-- C5, counterexample to the claim as stated: a non-empty run whose
`data-bbox` does not parse is dropped, so the output does not consist of
all non-empty runs — `fixDocBadBbox` has two non-empty runs but a single
output element. -/
theorem C5_counterexample :
    nonEmptyRunCount fixDocBadBbox = 2 ∧
      (extractTextElements fixDocBadBbox).length = 1 := by
  decide

/-- C5, witness. -/
theorem C5_witness :
    extractTextElements fixDocTwoPages = specExtractTextElements fixDocTwoPages ∧
      ((extractTextElements fixDocTwoPages).get ⟨1, by decide⟩).readingOrder = 1 :=
  ⟨(C5_parser_output_contract fixDocTwoPages).1,
   (C5_parser_output_contract fixDocTwoPages).2 1 (by decide)⟩

/-- C9: the parser assigns `page_number` as the 1-based positional index
of the enclosing page div (every element of the `i`-th page block carries
`i + 1`), and the `data-page` attribute is never read: inputs differing
only in `data-page` values produce identical output.  The third conjunct
ties the blocks to the actual output. -/
theorem C9_page_number_positional :
    (∀ a b : XhtmlInput, eqUpToDataPage a b →
        extractTextElements a = extractTextElements b) ∧
      (∀ (x : XhtmlInput) (i : Nat) (block : List PdfTextElement),
        (specPageBlocks x.styleData ((x.bookmarkData.map (fun b => b.sections)).getD [])
            0 0 x.pages).get? i = some block →
        ∀ e ∈ block, e.pageNumber = i + 1) ∧
      ∀ x : XhtmlInput, extractTextElements x = specExtractTextElements x := by
  refine ⟨?_, ?_, fun x => extract_eq_spec x⟩
  · rintro a b ⟨hsd, hbd, hpg⟩
    rw [extract_eq_spec, extract_eq_spec]
    simp only [specExtractTextElements]
    rw [hsd, hbd, specPageBlocks_congr hpg]
  · intro x i block h e he
    have := get?_specPageBlocks_pageNumber h e he
    omega

/-- C9, witness. -/
theorem C9_witness :
    (extractTextElements fixDocTwoPages = extractTextElements fixDocTwoPagesRenumbered) ∧
      fixElemPage2.pageNumber = 1 + 1 :=
  ⟨C9_page_number_positional.1 fixDocTwoPages fixDocTwoPagesRenumbered
      ⟨rfl, rfl, by decide⟩,
   C9_page_number_positional.2.1 fixDocTwoPages 1 [fixElemPage2] (by decide)
      fixElemPage2 (by decide)⟩

/-- C10: every extracted text element's pre-computed `token_count` is the
UTF-8 byte length of its (trimmed) text divided by 4 with floor division;
in particular a run shorter than 4 bytes gets token count 0. -/
theorem C10_token_estimate (x : XhtmlInput) (e : PdfTextElement)
    (he : e ∈ extractTextElements x) :
    e.tokenCount = e.text.utf8ByteSize / 4 ∧
      (e.text.utf8ByteSize < 4 → e.tokenCount = 0) := by
  rw [extract_eq_spec] at he
  simp only [specExtractTextElements] at he
  rcases mem_assignRO he with ⟨e', he', ht, htok, _⟩
  rcases List.mem_flatten.mp he' with ⟨block, hb, hbe⟩
  have hest := mem_specPageBlocks_token hb e' hbe
  have hmain : e.tokenCount = e.text.utf8ByteSize / 4 := by
    rw [htok, hest, ← ht]
    rfl
  exact ⟨hmain, fun hlt => by rw [hmain]; exact Nat.div_eq_of_lt hlt⟩

/-- C10, witness. -/
theorem C10_witness :
    fixElemUpper.tokenCount = fixElemUpper.text.utf8ByteSize / 4 ∧
      (fixElemUpper.text.utf8ByteSize < 4 → fixElemUpper.tokenCount = 0) :=
  C10_token_estimate fixDocTwoPages fixElemUpper (by decide)

/-- C8 (amended): the flat projection emits exactly one string per node
of the graph — the total node count, root and internal sections included,
not the leaf count. -/
theorem C8_flat_counts_nodes (g : DocumentGraph) :
    (toFlatFormat g).chunks.length = g.nodes.length := by
  simp only [toFlatFormat]
  rw [List.length_map, (List.perm_insertionSort textOrderLe g.nodes).length_eq]

/-- C8, counterexample to the claim as stated: `fixGraphTwo` has one leaf
but its flat projection has three strings (root, section, paragraph). -/
theorem C8_counterexample :
    leafCount fixGraphTwo = 1 ∧ (toFlatFormat fixGraphTwo).chunks.length = 3 := by
  decide

/-! ## Claims C3, C4 -/

set_option maxHeartbeats 1000000 in
/-- The `is_meaningful_header` boolean agrees with the claim-side
promotion condition. -/
lemma isMeaningfulHeaderB_iff (cfg : ParsingConfig) (documentAnalysis : DocumentAnalysis)
    (fontSizeAnalysis : FontSizeAnalysis) (element : PdfTextElement) :
    isMeaningfulHeaderB cfg documentAnalysis fontSizeAnalysis element = true ↔
      specSectionPromotion cfg documentAnalysis fontSizeAnalysis element := by
  by_cases hmin : element.styleInfo.fontSize < cfg.sectionAndHierarchy.minHeaderSize
  · have hnot : ¬ cfg.sectionAndHierarchy.minHeaderSize ≤ element.styleInfo.fontSize :=
      not_le.mpr hmin
    by_cases hstrict : cfg.sectionAndHierarchy.boldSizeStrict = true <;>
      simp [isMeaningfulHeaderB, isHeaderB, matchesSectionPatternB, specSectionPromotion,
        hmin, hstrict, Bool.and_eq_true, Bool.or_eq_true, decide_eq_true_eq,
        List.any_eq_true] <;>
      tauto
  · have hge : cfg.sectionAndHierarchy.minHeaderSize ≤ element.styleInfo.fontSize :=
      not_lt.mp hmin
    by_cases hstrict : cfg.sectionAndHierarchy.boldSizeStrict = true <;>
      simp [isMeaningfulHeaderB, isHeaderB, matchesSectionPatternB, specSectionPromotion,
        hmin, hstrict, Bool.and_eq_true, Bool.or_eq_true, decide_eq_true_eq,
        List.any_eq_true] <;>
      tauto

/-- C3 (amended): an element that is not already a Section is promoted to
Section iff it passes the typographic gate (`font_size ≥ min_header_size`
and one of: potential header size, above body size, bold criterion) **or**
its text matches a configured section pattern — and, in either case, its
trimmed text is meaningful (length ≥ 3 and (length ≥ 8, or bold, or
potential header size)).  The pattern path does not require
`font_size ≥ min_header_size`. -/
theorem C3_section_promotion (cfg : ParsingConfig) (documentAnalysis : DocumentAnalysis)
    (fontSizeAnalysis : FontSizeAnalysis) (element : PdfTextElement)
    (currentElement : ParsedPdfElement) (ctx : HierarchyContext)
    (hne : currentElement.elementType ≠ ParsedElementType.Section) :
    (classifyIndividualElementContextual cfg documentAnalysis fontSizeAnalysis element
        currentElement ctx).1.1 = ParsedElementType.Section ↔
      specSectionPromotion cfg documentAnalysis fontSizeAnalysis element := by
  rw [← isMeaningfulHeaderB_iff cfg documentAnalysis fontSizeAnalysis element]
  unfold classifyIndividualElementContextual
  by_cases h : isMeaningfulHeaderB cfg documentAnalysis fontSizeAnalysis element = true <;>
    simp [h, hne]

/-- C3, counterexample to the claim as stated: with the built-in generic
pattern `"chapter"`, a 6pt non-bold element (below `min_header_size = 8`)
whose text contains "chapter" is still promoted to Section. -/
theorem C3_counterexample :
    (classifyIndividualElementContextual fixCfgC3 fixAnalysis fixFsa fixTeChapter
        (fixElem ParsedElementType.Paragraph 1 "x" 1 0 0) HierarchyContext.init).1.1 =
      ParsedElementType.Section ∧
      fixTeChapter.styleInfo.fontSize < fixCfgC3.sectionAndHierarchy.minHeaderSize := by
  exact ⟨by decide, by decide⟩

/-- C3, witness. -/
theorem C3_witness :
    ((classifyIndividualElementContextual fixCfgC3 fixAnalysis fixFsa fixTeHeader
        (fixElem ParsedElementType.Paragraph 1 "x" 1 0 0) HierarchyContext.init).1.1 =
      ParsedElementType.Section ↔
        specSectionPromotion fixCfgC3 fixAnalysis fixFsa fixTeHeader) :=
  C3_section_promotion fixCfgC3 fixAnalysis fixFsa fixTeHeader
    (fixElem ParsedElementType.Paragraph 1 "x" 1 0 0) HierarchyContext.init (by decide)

/-- C4 (amended): on a Section whose font size is **not** strictly
smaller than the previous section's and within `font_size_tolerance` of
it, the current hierarchy level is kept; but a font size strictly smaller
than the previous one — even within the tolerance — descends one level
(the smaller-size branch is tested before the tolerance branch), unless
capped by `max_depth`. -/
theorem C4_same_size_same_level (ctx : HierarchyContext)
    (config : SectionAndHierarchyConfig) (fontSize prevFont : ℚ)
    (hprev : ctx.previousSectionFontSize = some prevFont) :
    (¬ fontSize < prevFont → |fontSize - prevFont| < config.fontSizeTolerance →
      (ctx.updateForSection fontSize config).1 = ctx.currentLevel) ∧
    (fontSize < prevFont →
      (config.enforceMaxDepth = false ∨ ctx.currentLevel + 1 ≤ config.maxDepth) →
      (ctx.updateForSection fontSize config).1 = ctx.currentLevel + 1) := by
  constructor
  · intro hnlt htol
    simp only [HierarchyContext.updateForSection, hprev]
    rw [if_neg hnlt, if_pos htol]
  · intro hlt hncap
    have hcap : (config.enforceMaxDepth &&
        decide (ctx.currentLevel + 1 > config.maxDepth)) = false := by
      rcases hncap with h | h
      · simp [h]
      · have hno : ¬ (ctx.currentLevel + 1 > config.maxDepth) := by omega
        simp [hno]
    simp only [HierarchyContext.updateForSection, hprev]
    rw [if_pos hlt, if_neg (by simp [hcap])]

/-- C4, counterexample to the claim as stated: with tolerance 2, a 19pt
section right after a 20pt section differs by less than the tolerance yet
is assigned level 2, one deeper than the current level 1. -/
theorem C4_counterexample :
    |(19 : ℚ) - 20| < fixCfgC4.fontSizeTolerance ∧
      fixCtxC4.currentLevel = 1 ∧
      (fixCtxC4.updateForSection 19 fixCfgC4).1 = 2 := by
  refine ⟨by norm_num [fixCfgC4], by decide, by decide⟩

/-- Arithmetic fact used by the C4 witness. -/
lemma fixC4_tolerance_fact : |(21 : ℚ) - 20| < fixCfgC4.fontSizeTolerance := by
  norm_num [fixCfgC4]

/-- C4, witness: a 21pt section after a 20pt one (within tolerance, not
smaller) keeps level 1. -/
theorem C4_witness :
    (fixCtxC4.updateForSection 21 fixCfgC4).1 = fixCtxC4.currentLevel :=
  (C4_same_size_same_level fixCtxC4 fixCfgC4 21 20 (by decide)).1
    (by decide) fixC4_tolerance_fact

/-! ## Claim C6: paragraph merging -/

lemma foldl_append_flatten {α β : Type} (f : β → List α) :
    ∀ (l : List β) (init : List α),
      l.foldl (fun acc b => acc ++ f b) init = init ++ (l.map f).flatten := by
  intro l
  induction l with
  | nil => simp
  | cons b t ih => intro init; simp [ih, List.append_assoc]

/-- `mergeInto` never changes the fields it does not aggregate. -/
lemma mergeInto_fixed : ∀ (rest : List ParsedPdfElement) (first : ParsedPdfElement),
    (mergeInto first rest).styleInfo = first.styleInfo ∧
      (mergeInto first rest).pageNumber = first.pageNumber ∧
      (mergeInto first rest).paragraphNumber = first.paragraphNumber ∧
      (mergeInto first rest).readingOrder = first.readingOrder := by
  intro rest
  induction rest with
  | nil => intro first; simp [mergeInto]
  | cons e t ih =>
      intro first
      simpa [mergeInto] using ih _

lemma mergeInto_text : ∀ (rest : List ParsedPdfElement) (first : ParsedPdfElement),
    (mergeInto first rest).text =
      (rest.map (fun e => e.text)).foldl (fun acc u => acc ++ " " ++ u) first.text := by
  intro rest
  induction rest with
  | nil => intro first; simp [mergeInto]
  | cons e t ih =>
      intro first
      simpa [mergeInto] using ih _

lemma mergeInto_bbox : ∀ (rest : List ParsedPdfElement) (first : ParsedPdfElement),
    (mergeInto first rest).boundingBox =
      (rest.map (fun e => e.boundingBox)).foldl mergeBoundingBoxes first.boundingBox := by
  intro rest
  induction rest with
  | nil => intro first; simp [mergeInto]
  | cons e t ih =>
      intro first
      simpa [mergeInto] using ih _

lemma mergeInto_cons (first e : ParsedPdfElement) (t : List ParsedPdfElement) :
    mergeInto first (e :: t) =
      mergeInto
        { first with
          text := first.text ++ " " ++ e.text
          boundingBox := mergeBoundingBoxes first.boundingBox e.boundingBox
          tokenCount := first.tokenCount + e.tokenCount } t := rfl

lemma mergeInto_token : ∀ (rest : List ParsedPdfElement) (first : ParsedPdfElement),
    (mergeInto first rest).tokenCount =
      first.tokenCount + (rest.map (fun e => e.tokenCount)).sum := by
  intro rest
  induction rest with
  | nil => intro first; simp [mergeInto]
  | cons e t ih =>
      intro first
      rw [mergeInto_cons, ih]
      simp
      omega

/-- Folding pairwise bounding-box merges yields the tight union. -/
lemma foldl_merge_tightUnion : ∀ (bs : List BoundingBox) (b : BoundingBox),
    bs.foldl mergeBoundingBoxes b = tightUnion b bs := by
  intro bs
  induction bs with
  | nil =>
      intro b
      cases b with
      | mk bx bby bw bh => simp [tightUnion, minList, maxList, add_sub_cancel_left]
  | cons c cs ih =>
      intro b
      rw [List.foldl_cons, ih]
      cases b with
      | mk bx bby bw bh =>
          cases c with
          | mk cx cy cw ch =>
              simp only [tightUnion, mergeBoundingBoxes, minList, maxList, List.map_cons,
                List.foldl_cons]
              congr 2 <;> rw [add_sub_cancel]

lemma insertGrouped_keys (key : Nat × Nat) (e : ParsedPdfElement) :
    ∀ gs : List ((Nat × Nat) × List ParsedPdfElement),
      (insertGrouped key e gs).map (fun kg => kg.1) =
        if key ∈ gs.map (fun kg => kg.1) then gs.map (fun kg => kg.1)
        else gs.map (fun kg => kg.1) ++ [key] := by
  intro gs
  induction gs with
  | nil => simp [insertGrouped]
  | cons kg t ih =>
      by_cases hk : kg.1 = key
      · obtain ⟨k, g⟩ := kg
        simp_all [insertGrouped]
      · obtain ⟨k, g⟩ := kg
        simp only at hk
        simp only [insertGrouped, if_neg hk, List.map_cons, ih]
        have : ¬ key = k := fun h => hk h.symm
        by_cases hmem : key ∈ t.map (fun kg => kg.1) <;>
          simp [hmem, this]

lemma insertGrouped_groups (e : ParsedPdfElement) :
    ∀ gs : List ((Nat × Nat) × List ParsedPdfElement),
      (∀ kg ∈ gs, kg.2 ≠ [] ∧ ∀ x ∈ kg.2, (x.pageNumber, x.paragraphNumber) = kg.1) →
      ∀ kg ∈ insertGrouped (e.pageNumber, e.paragraphNumber) e gs,
        kg.2 ≠ [] ∧ ∀ x ∈ kg.2, (x.pageNumber, x.paragraphNumber) = kg.1 := by
  intro gs
  induction gs with
  | nil =>
      intro _ kg hkg
      simp only [insertGrouped, List.mem_singleton] at hkg
      subst hkg
      exact ⟨by simp, by simp⟩
  | cons kg0 t ih =>
      intro hmem kg hkg
      obtain ⟨k0, g0⟩ := kg0
      by_cases hk : k0 = (e.pageNumber, e.paragraphNumber)
      · simp only [insertGrouped, if_pos hk] at hkg
        rcases List.mem_cons.mp hkg with rfl | hkg
        · refine ⟨by simp, ?_⟩
          intro x hx
          rcases List.mem_append.mp hx with hx | hx
          · exact (hmem (k0, g0) (List.mem_cons_self _ _)).2 x hx
          · simp only [List.mem_singleton] at hx
            subst hx
            exact hk.symm
        · exact hmem kg (List.mem_cons_of_mem _ hkg)
      · simp only [insertGrouped, if_neg hk] at hkg
        rcases List.mem_cons.mp hkg with rfl | hkg
        · exact hmem _ (List.mem_cons_self _ _)
        · exact ih (fun kg' hkg' => hmem kg' (List.mem_cons_of_mem _ hkg')) kg hkg

lemma insertGrouped_wf {e : ParsedPdfElement}
    {gs : List ((Nat × Nat) × List ParsedPdfElement)} (h : GroupsWF gs) :
    GroupsWF (insertGrouped (e.pageNumber, e.paragraphNumber) e gs) := by
  obtain ⟨hmem, hnodup⟩ := h
  refine ⟨insertGrouped_groups e gs hmem, ?_⟩
  rw [insertGrouped_keys]
  by_cases hmem' : (e.pageNumber, e.paragraphNumber) ∈ gs.map (fun kg => kg.1)
  · simp [hmem', hnodup]
  · rw [if_neg hmem']
    rw [List.nodup_append]
    exact ⟨hnodup, by simp, by simp [List.disjoint_singleton, hmem']⟩

lemma insertGrouped_flatten (key : Nat × Nat) (e : ParsedPdfElement) :
    ∀ gs : List ((Nat × Nat) × List ParsedPdfElement),
      ((insertGrouped key e gs).map (fun kg => kg.2)).flatten.Perm
        ((gs.map (fun kg => kg.2)).flatten ++ [e]) := by
  intro gs
  induction gs with
  | nil => simp [insertGrouped]
  | cons kg t ih =>
      obtain ⟨k, g⟩ := kg
      by_cases hk : k = key
      · simp only [insertGrouped, if_pos hk, List.map_cons, List.flatten_cons]
        have hperm : (g ++ [e] ++ (t.map (fun kg => kg.2)).flatten).Perm
            (g ++ (t.map (fun kg => kg.2)).flatten ++ [e]) := by
          simp only [List.append_assoc]
          exact List.Perm.append_left g (List.perm_append_comm)
        simpa [List.append_assoc] using hperm
      · simp only [insertGrouped, if_neg hk, List.map_cons, List.flatten_cons]
        have h1 : (g ++ ((insertGrouped key e t).map (fun kg => kg.2)).flatten).Perm
            (g ++ ((t.map (fun kg => kg.2)).flatten ++ [e])) :=
          List.Perm.append_left g ih
        simpa [List.append_assoc] using h1

lemma groupByParagraph_wf (elements : List ParsedPdfElement) :
    GroupsWF (groupByParagraph elements) := by
  have main : ∀ (es : List ParsedPdfElement) (acc : List ((Nat × Nat) × List ParsedPdfElement)),
      GroupsWF acc →
      GroupsWF (es.foldl (fun acc e => insertGrouped (e.pageNumber, e.paragraphNumber) e acc) acc) := by
    intro es
    induction es with
    | nil => intro acc h; exact h
    | cons e t ih => intro acc h; exact ih _ (insertGrouped_wf h)
  exact main elements [] ⟨by simp, by simp⟩

lemma groupByParagraph_flatten (elements : List ParsedPdfElement) :
    ((groupByParagraph elements).map (fun kg => kg.2)).flatten.Perm elements := by
  have main : ∀ (es : List ParsedPdfElement) (acc : List ((Nat × Nat) × List ParsedPdfElement)),
      ((es.foldl (fun acc e => insertGrouped (e.pageNumber, e.paragraphNumber) e acc) acc).map
          (fun kg => kg.2)).flatten.Perm ((acc.map (fun kg => kg.2)).flatten ++ es) := by
    intro es
    induction es with
    | nil => intro acc; simp
    | cons e t ih =>
        intro acc
        refine (ih _).trans ?_
        have h1 := insertGrouped_flatten (e.pageNumber, e.paragraphNumber) e acc
        have h2 := h1.append_right t
        simpa [List.append_assoc] using h2
  simpa [groupByParagraph] using main elements []

lemma mergedOfGroup_spec (g : List ParsedPdfElement) (h : g ≠ []) :
    ∃ first rest, List.insertionSort roLe g = first :: rest ∧
      mergedOfGroup g = [mergeInto first rest] := by
  match g, h with
  | [a], _ =>
      refine ⟨a, [], by simp [List.insertionSort, List.orderedInsert], ?_⟩
      simp [mergedOfGroup, mergeInto]
  | a :: b :: t, _ =>
      have hlen : (List.insertionSort roLe (a :: b :: t)).length = t.length + 2 := by
        simpa using (List.perm_insertionSort roLe (a :: b :: t)).length_eq
      match hs : List.insertionSort roLe (a :: b :: t) with
      | [] => rw [hs] at hlen; simp at hlen
      | first :: rest =>
          refine ⟨first, rest, rfl, ?_⟩
          simp only [mergedOfGroup]
          rw [hs]

/-- Head of the reading-order sort is minimal in the group. -/
lemma sortedHead_min {g : List ParsedPdfElement} {first : ParsedPdfElement}
    {rest : List ParsedPdfElement} (hs : List.insertionSort roLe g = first :: rest) :
    ∀ e ∈ g, first.readingOrder ≤ e.readingOrder := by
  intro e he
  have hsorted : List.Sorted roLe (first :: rest) := by
    rw [← hs]; exact List.sorted_insertionSort roLe g
  have hperm : g.Perm (first :: rest) := by
    rw [← hs]; exact (List.perm_insertionSort roLe g).symm
  rcases List.mem_cons.mp (hperm.mem_iff.mp he) with rfl | hmem
  · exact Nat.le_refl _
  · exact (List.sorted_cons.mp hsorted).1 e hmem

lemma mergedFlatten_length : ∀ (gs : List ((Nat × Nat) × List ParsedPdfElement)),
    (∀ kg ∈ gs, kg.2 ≠ []) →
    ((gs.map (fun kg => mergedOfGroup kg.2)).flatten).length = gs.length := by
  intro gs
  induction gs with
  | nil => simp
  | cons kg t ih =>
      intro h
      obtain ⟨f, r, _, hm⟩ := mergedOfGroup_spec kg.2 (h kg (List.mem_cons_self _ _))
      simp [hm, ih (fun kg' h' => h kg' (List.mem_cons_of_mem _ h'))]

lemma cluster_eq {elements : List ParsedPdfElement} (h : ¬ elements.isEmpty = true) :
    clusterParagraphsElements elements =
      List.insertionSort pageRoLe
        ((groupByParagraph elements).map (fun kg => mergedOfGroup kg.2)).flatten := by
  simp only [clusterParagraphsElements, h, if_false, Bool.false_eq_true]
  rw [foldl_append_flatten]
  simp

/-- C6: the paragraph-merging sub-pass groups by
`(page_number, paragraph_number)` (groups partition the input, members
carry their group's key, keys are distinct); each group contributes one
output element merged as the claim describes (reading-order sort, texts
joined by single spaces, tight bounding-box union, summed token counts,
first member's style, first member's minimal reading order); and the
output is ordered by `(page asc, reading order asc)`. -/
theorem C6_paragraph_merging (elements : List ParsedPdfElement) :
    List.Sorted pageRoLe (clusterParagraphsElements elements) ∧
      (clusterParagraphsElements elements).length =
        (groupByParagraph elements).length ∧
      ((groupByParagraph elements).map (fun kg => kg.2)).flatten.Perm elements ∧
      (∀ kg ∈ groupByParagraph elements, ∀ e ∈ kg.2,
        (e.pageNumber, e.paragraphNumber) = kg.1) ∧
      ((groupByParagraph elements).map (fun kg => kg.1)).Nodup ∧
      ∀ kg ∈ groupByParagraph elements,
        specMergedGroupInOutput (clusterParagraphsElements elements) kg := by
  obtain ⟨hwf, hnodup⟩ := groupByParagraph_wf elements
  by_cases hemp : elements.isEmpty = true
  · have h0 : elements = [] := by cases elements <;> simp_all
    subst h0
    refine ⟨by simp [clusterParagraphsElements], by simp [clusterParagraphsElements,
      groupByParagraph], by simp [groupByParagraph], ?_, ?_, ?_⟩ <;>
      simp [groupByParagraph]
  · have hc := cluster_eq hemp
    refine ⟨?_, ?_, groupByParagraph_flatten elements, ?_, hnodup, ?_⟩
    · rw [hc]; exact List.sorted_insertionSort pageRoLe _
    · rw [hc, (List.perm_insertionSort pageRoLe _).length_eq]
      exact mergedFlatten_length _ (fun kg h => (hwf kg h).1)
    · intro kg hkg e he
      exact (hwf kg hkg).2 e he
    · intro kg hkg
      obtain ⟨first, rest, hs, hm⟩ := mergedOfGroup_spec kg.2 (hwf kg hkg).1
      have hmem : mergeInto first rest ∈ clusterParagraphsElements elements := by
        rw [hc, (List.perm_insertionSort pageRoLe _).mem_iff]
        refine List.mem_flatten.mpr ⟨[mergeInto first rest], ?_, by simp⟩
        rw [← hm]
        exact List.mem_map_of_mem (fun kg => mergedOfGroup kg.2) hkg
      obtain ⟨hstyle, hpage, hpara, hro⟩ := mergeInto_fixed rest first
      refine ⟨mergeInto first rest, hmem, first, rest, hs, ?_, ?_, ?_, ?_,
        hstyle, hpage, hro, sortedHead_min hs⟩
      · rw [← hs]; exact List.perm_insertionSort roLe kg.2
      · rw [mergeInto_text]; simp [joinSpace]
      · rw [mergeInto_bbox, foldl_merge_tightUnion]
      · rw [mergeInto_token]; simp

/-- C6, witness. -/
theorem C6_witness :
    specMergedGroupInOutput (clusterParagraphsElements fixClusterEls)
      ((1, 5), [fixElem ParsedElementType.Paragraph 1 "b" 1 5 3,
                fixElem ParsedElementType.Paragraph 1 "a" 1 5 2]) :=
  (C6_paragraph_merging fixClusterEls).2.2.2.2.2 _ (by decide)

/-! ## Claim C7: pipeline on documents without sections -/

lemma set_same {α : Type} : ∀ (l : List α) (i : Nat) (a : α),
    l.get? i = some a → l.set i a = l := by
  intro l
  induction l with
  | nil => intro i a h; simp at h
  | cons x t ih =>
      intro i a h
      cases i with
      | zero => simp only [List.get?_cons_zero, Option.some.injEq] at h; simp [h]
      | succ i =>
          simp only [List.get?_cons_succ] at h
          simp only [List.set_cons_succ]
          rw [ih i a h]

/-- Breadcrumb propagation changes no field other than `breadcrumbs`. -/
lemma propagate_eraseBC : ∀ (fuel : Nat) (nodes : List DocumentNode) (i : Nat)
    (pbc : List String),
    (propagateBreadcrumbs fuel nodes i pbc).map eraseBC = nodes.map eraseBC := by
  intro fuel
  induction fuel with
  | zero => intro nodes i pbc; rfl
  | succ fuel ih =>
      intro nodes i pbc
      simp only [propagateBreadcrumbs]
      cases hg : nodes.get? i with
      | none => rfl
      | some n =>
          have hset : (nodes.set i { n with breadcrumbs :=
              if n.nodeType = "Section" then pbc ++ [n.text] else pbc }).map eraseBC =
              nodes.map eraseBC := by
            rw [List.map_set]
            exact set_same _ _ _ (by rw [List.get?_map, hg]; rfl)
          have hfold : ∀ (cs : List Nat) (ns : List DocumentNode) (bc : List String),
              ns.map eraseBC = nodes.map eraseBC →
              ((cs.foldl (fun a c => propagateBreadcrumbs fuel a c bc) ns).map eraseBC =
                nodes.map eraseBC) := by
            intro cs
            induction cs with
            | nil => intro ns bc h; exact h
            | cons c ct ihc =>
                intro ns bc h
                exact ihc _ bc (by rw [ih]; exact h)
          exact hfold n.children _ _ hset

/-- `compute_breadcrumbs` changes no field other than `breadcrumbs`. -/
lemma computeBreadcrumbs_eraseBC (g : DocumentGraph) :
    (computeBreadcrumbs g).nodes.map eraseBC = g.nodes.map eraseBC := by
  simp only [computeBreadcrumbs]
  cases hg : g.nodes.get? 0 with
  | none =>
      simp only [hg]
      have hfold : ∀ (cs : List Nat) (ns : List DocumentNode),
          ns.map eraseBC = g.nodes.map eraseBC →
          ((cs.foldl (fun a c =>
              propagateBreadcrumbs g.nodes.length a c (rootCrumbsOf g)) ns).map eraseBC =
            g.nodes.map eraseBC) := by
        intro cs
        induction cs with
        | nil => intro ns h; exact h
        | cons c ct ihc =>
            intro ns h
            exact ihc _ (by rw [propagate_eraseBC]; exact h)
      exact hfold _ _ rfl
  | some root =>
      simp only [hg]
      have hset : (g.nodes.set 0 { root with breadcrumbs :=
          match g.title with
          | some t => if t.data.isEmpty then [] else [t]
          | none => [] }).map eraseBC = g.nodes.map eraseBC := by
        rw [List.map_set]
        exact set_same _ _ _ (by rw [List.get?_map, hg]; rfl)
      have hfold : ∀ (cs : List Nat) (ns : List DocumentNode),
          ns.map eraseBC = g.nodes.map eraseBC →
          ((cs.foldl (fun a c =>
              propagateBreadcrumbs g.nodes.length a c
                (match g.title with
                 | some t => if t.data.isEmpty then [] else [t]
                 | none => [])) ns).map eraseBC = g.nodes.map eraseBC) := by
        intro cs
        induction cs with
        | nil => intro ns h; exact h
        | cons c ct ihc =>
            intro ns h
            exact ihc _ (by rw [propagate_eraseBC]; exact h)
      exact hfold _ _ hset

/-- Every section-detection output on inputs our claims use either
contains a Section or is the input list with every hierarchy level set to
the (unchanged) content level. -/
lemma sdFold_prefix (cfg : ParsingConfig) (da : DocumentAnalysis)
    (fsa : FontSizeAnalysis) (ts : List PdfTextElement) :
    ∀ (inputs : List ParsedPdfElement) (acc : List ParsedPdfElement)
      (ctx : HierarchyContext),
      ∃ suffix, (inputs.foldl (sectionDetectionStep cfg da fsa ts) (acc, ctx)).1 =
        acc ++ suffix := by
  intro inputs
  induction inputs with
  | nil => intro acc ctx; exact ⟨[], by simp⟩
  | cons e t ih =>
      intro acc ctx
      rw [List.foldl_cons]
      have hstep : ∃ (x : ParsedPdfElement) (ctx' : HierarchyContext),
          sectionDetectionStep cfg da fsa ts (acc, ctx) e = (acc ++ [x], ctx') := by
        simp only [sectionDetectionStep]
        cases ht : ts.get? e.position
        · exact ⟨_, _, rfl⟩
        · exact ⟨_, _, rfl⟩
      obtain ⟨x, ctx', hx⟩ := hstep
      rw [hx]
      obtain ⟨suffix, hs⟩ := ih (acc ++ [x]) ctx'
      exact ⟨[x] ++ suffix, by rw [hs, List.append_assoc]⟩

lemma sdFold_char (cfg : ParsingConfig) (da : DocumentAnalysis)
    (fsa : FontSizeAnalysis) (ts : List PdfTextElement) :
    ∀ (inputs : List ParsedPdfElement) (acc : List ParsedPdfElement)
      (ctx : HierarchyContext),
      (∃ e ∈ (inputs.foldl (sectionDetectionStep cfg da fsa ts) (acc, ctx)).1,
        e.elementType = ParsedElementType.Section) ∨
      (inputs.foldl (sectionDetectionStep cfg da fsa ts) (acc, ctx)).1 =
        acc ++ inputs.map (fun e => { e with hierarchyLevel := ctx.getContentLevel }) := by
  intro inputs
  induction inputs with
  | nil => intro acc ctx; exact Or.inr (by simp)
  | cons e t ih =>
      intro acc ctx
      rw [List.foldl_cons]
      by_cases hsec : ∃ te, ts.get? e.position = some te ∧
          isMeaningfulHeaderB cfg da fsa te = true
      · obtain ⟨te, ht, hm⟩ := hsec
        have hstep : sectionDetectionStep cfg da fsa ts (acc, ctx) e =
            (acc ++ [{ e with
                elementType := ParsedElementType.Section
                hierarchyLevel := (ctx.updateForSection te.styleInfo.fontSize
                  cfg.sectionAndHierarchy).1 }],
             (ctx.updateForSection te.styleInfo.fontSize cfg.sectionAndHierarchy).2) := by
          simp only [sectionDetectionStep, ht]
          simp [classifyIndividualElementContextual, hm]
        rw [hstep]
        obtain ⟨suffix, hs⟩ := sdFold_prefix cfg da fsa ts t
          (acc ++ [{ e with
              elementType := ParsedElementType.Section
              hierarchyLevel := (ctx.updateForSection te.styleInfo.fontSize
                cfg.sectionAndHierarchy).1 }])
          (ctx.updateForSection te.styleInfo.fontSize cfg.sectionAndHierarchy).2
        refine Or.inl ⟨{ e with
            elementType := ParsedElementType.Section
            hierarchyLevel := (ctx.updateForSection te.styleInfo.fontSize
              cfg.sectionAndHierarchy).1 }, ?_, rfl⟩
        rw [hs]
        simp
      · have hstep : sectionDetectionStep cfg da fsa ts (acc, ctx) e =
            (acc ++ [{ e with hierarchyLevel := ctx.getContentLevel }], ctx) := by
          cases ht : ts.get? e.position with
          | none => simp only [sectionDetectionStep, ht]
          | some te =>
              have hm : ¬ isMeaningfulHeaderB cfg da fsa te = true :=
                fun hm => hsec ⟨te, ht, hm⟩
              simp only [sectionDetectionStep, ht]
              simp [classifyIndividualElementContextual, hm]
        rw [hstep]
        rcases ih (acc ++ [{ e with hierarchyLevel := ctx.getContentLevel }]) ctx with h | h
        · exact Or.inl h
        · rw [h]
          exact Or.inr (by simp)

/-- Base conversion emits only level-1 paragraphs. -/
lemma baseConversion_paragraphs (ts : List PdfTextElement) :
    ∀ e ∈ convertTextElementsToParsed ts,
      e.elementType = ParsedElementType.Paragraph := by
  intro e he
  simp only [convertTextElementsToParsed, List.mem_filterMap] at he
  obtain ⟨p, _, hp⟩ := he
  by_cases h : (trimString p.2.text).data.isEmpty <;> simp [h] at hp
  rw [← hp]

/-- The inputs the section-detection pass iterates over are all
paragraphs, in both the pass-through and the recreate-from-text branch. -/
lemma sdInputs_paragraphs (ts : List PdfTextElement) :
    ∀ e ∈ (if (convertTextElementsToParsed ts).isEmpty
        then ts.enum.map (fun p => initialElementOf p.1 p.2)
        else convertTextElementsToParsed ts),
      e.elementType = ParsedElementType.Paragraph := by
  intro e he
  by_cases h : (convertTextElementsToParsed ts).isEmpty
  · rw [if_pos h] at he
    obtain ⟨p, _, hp⟩ := List.mem_map.mp he
    rw [← hp]
    rfl
  · rw [if_neg h] at he
    exact baseConversion_paragraphs ts e he

/-- The graph-building loop on a sequence of level-2 paragraphs: every
emitted node is a `Paragraph` at depth 2 whose parent is the root. -/
lemma buildFold_level2 :
    ∀ (es : List (Nat × ParsedPdfElement)) (nodes : List DocumentNode),
      (∀ ie ∈ es, ie.2.elementType = ParsedElementType.Paragraph ∧
        ie.2.hierarchyLevel = 2) →
      (∀ j node, nodes.get? j = some node → 0 < j →
        node.nodeType = "Paragraph" ∧ node.depth = 2 ∧ node.parent = some 0) →
      ∀ j node, (es.foldl buildGraphStep (nodes, [0])).1.get? j = some node → 0 < j →
        node.nodeType = "Paragraph" ∧ node.depth = 2 ∧ node.parent = some 0 := by
  intro es
  induction es with
  | nil => intro nodes _ hinv j node hj h0; exact hinv j node hj h0
  | cons ie t ih =>
      intro nodes hels hinv j node hj h0
      obtain ⟨htype, hlvl⟩ := hels ie (List.mem_cons_self _ _)
      have hstep : buildGraphStep (nodes, [0]) ie =
          (pushChild (nodes ++ [{ createNodeFromGroup ie.2 ie.1 with
              parent := some 0
              depth := 2
              textOrder := some ie.1
              path := generateHierarchicalPath nodes 0 ie.1 }]) 0 nodes.length,
           [0]) := by
        simp [buildGraphStep, findParent, htype, hlvl]
      rw [List.foldl_cons, hstep] at hj
      refine ih _ (fun x hx => hels x (List.mem_cons_of_mem _ hx)) ?_ j node hj h0
      intro j' node' hj' h0'
      have hj'' : (nodes ++ [{ createNodeFromGroup ie.2 ie.1 with
          parent := some 0
          depth := 2
          textOrder := some ie.1
          path := generateHierarchicalPath nodes 0 ie.1 }]).get? j' = some node' := by
        simp only [pushChild] at hj'
        cases hp : (nodes ++ [_]).get? 0 with
        | none => rw [hp] at hj'; exact hj'
        | some pn =>
            rw [hp] at hj'
            rwa [List.get?_set_ne _ _ (by omega)] at hj'
      by_cases hlt : j' < nodes.length
      · rw [List.get?_append hlt] at hj''
        exact hinv j' node' hj'' h0'
      · have hge : nodes.length ≤ j' := Nat.le_of_not_lt hlt
        rw [List.get?_append_right hge] at hj''
        cases hdiff : j' - nodes.length with
        | zero =>
            rw [hdiff] at hj''
            simp only [List.get?_cons_zero, Option.some.injEq] at hj''
            rw [← hj'']
            exact ⟨by simp [createNodeFromGroup, nodeTypeName, htype], rfl, rfl⟩
        | succ k => rw [hdiff] at hj''; simp at hj''

/-- `pushChild` only touches the `children` field: the (nodeType, depth)
projection of every entry is unchanged. -/
lemma pushChild_get_core (nodes : List DocumentNode) (p c j : Nat) :
    ((pushChild nodes p c).get? j).map (fun n => (n.nodeType, n.depth)) =
    (nodes.get? j).map (fun n => (n.nodeType, n.depth)) := by
  unfold pushChild
  cases hp : nodes.get? p with
  | none => rfl
  | some pn =>
      by_cases hj : j = p
      · subst hj
        rw [List.get?_set_eq, hp]
        rfl
      · rw [List.get?_set_ne _ _ (fun h => hj h.symm)]

/-- `pushChild` preserves the node-list length. -/
lemma pushChild_length (nodes : List DocumentNode) (p c : Nat) :
    (pushChild nodes p c).length = nodes.length := by
  unfold pushChild
  cases nodes.get? p <;> simp

/-- One `build_graph` iteration keeps the list nonempty and never changes
the root entry's node type or depth. -/
lemma buildGraphStep_core (st : List DocumentNode × List Nat) (ie : Nat × ParsedPdfElement)
    (h : 0 < st.1.length) :
    0 < (buildGraphStep st ie).1.length ∧
    ((buildGraphStep st ie).1.get? 0).map (fun n => (n.nodeType, n.depth)) =
      (st.1.get? 0).map (fun n => (n.nodeType, n.depth)) := by
  simp only [buildGraphStep]
  refine ⟨?_, ?_⟩
  · simp [pushChild_length]
  · rw [pushChild_get_core, List.get?_append h]

/-- Along the whole `build_graph` fold the root entry keeps its node type
and depth. -/
lemma buildFold_core :
    ∀ (es : List (Nat × ParsedPdfElement)) (nodes : List DocumentNode) (stack : List Nat),
      0 < nodes.length →
      0 < (es.foldl buildGraphStep (nodes, stack)).1.length ∧
      ((es.foldl buildGraphStep (nodes, stack)).1.get? 0).map (fun n => (n.nodeType, n.depth)) =
        (nodes.get? 0).map (fun n => (n.nodeType, n.depth)) := by
  intro es
  induction es with
  | nil => intro nodes stack h; exact ⟨h, rfl⟩
  | cons ie t ih =>
      intro nodes stack h
      rw [List.foldl_cons]
      obtain ⟨h1, h2⟩ := buildGraphStep_core (nodes, stack) ie h
      have hrest := ih (buildGraphStep (nodes, stack) ie).1
        (buildGraphStep (nodes, stack) ie).2 h1
      rw [Prod.mk.eta] at hrest
      exact ⟨hrest.1, hrest.2.trans h2⟩

/-- Entrywise form of `computeBreadcrumbs_eraseBC`. -/
lemma computeBreadcrumbs_get_eraseBC (g : DocumentGraph) (j : Nat) :
    ((computeBreadcrumbs g).nodes.get? j).map eraseBC =
    (g.nodes.get? j).map eraseBC := by
  have h := congrArg (fun l => l.get? j) (computeBreadcrumbs_eraseBC g)
  simpa [List.get?_map] using h

/-- C7: the spec says that when no element is classified as a Section the
pipeline produces the Document root plus Paragraph nodes only, every
non-root node having depth 1.  The "Paragraph nodes only" part holds, but
the depth is 2, not 1: with no sections every element keeps the content
level `current_level + 1 = 2` of the fresh `HierarchyContext`, and
`build_graph` copies that hierarchy level into the node's depth while
attaching the node to the root.  Proved here in the corrected form: for
the rule-engine output on any text-element list, if no output element is a
Section then the root is a Document node at depth 0 and every other node
is a Paragraph at depth 2 whose parent is node 0. -/
theorem C7_no_sections_graph (cfg : ParsingConfig) (da : DocumentAnalysis)
    (fsa : FontSizeAnalysis) (ts : List PdfTextElement)
    (es : List ParsedPdfElement)
    (hes : es = sectionDetectionApply cfg da fsa ts (convertTextElementsToParsed ts))
    (hns : ∀ e ∈ es, e.elementType ≠ ParsedElementType.Section) :
    (((buildGraph es).nodes.get? 0).map (fun n => (n.nodeType, n.depth)) =
      some ("Document", 0)) ∧
    (∀ j node, (buildGraph es).nodes.get? j = some node → 0 < j →
      node.nodeType = "Paragraph" ∧ node.depth = 2 ∧ node.parent = some 0) := by
  have hes' : es = ((if (convertTextElementsToParsed ts).isEmpty
      then ts.enum.map (fun p => initialElementOf p.1 p.2)
      else convertTextElementsToParsed ts).foldl
      (sectionDetectionStep cfg da fsa ts) ([], HierarchyContext.init)).1 := by
    rw [hes]; rfl
  rcases sdFold_char cfg da fsa ts
      (if (convertTextElementsToParsed ts).isEmpty
        then ts.enum.map (fun p => initialElementOf p.1 p.2)
        else convertTextElementsToParsed ts) [] HierarchyContext.init with h | h
  · obtain ⟨e, he, hsec⟩ := h
    exact absurd hsec (hns e (hes' ▸ he))
  · have hmap : es = (if (convertTextElementsToParsed ts).isEmpty
        then ts.enum.map (fun p => initialElementOf p.1 p.2)
        else convertTextElementsToParsed ts).map
        (fun e => { e with hierarchyLevel := HierarchyContext.init.getContentLevel }) := by
      rw [hes', h]; simp
    have hfacts : ∀ e ∈ es, e.elementType = ParsedElementType.Paragraph ∧
        e.hierarchyLevel = 2 := by
      intro e he
      rw [hmap] at he
      obtain ⟨x, hx, hxe⟩ := List.mem_map.mp he
      have hp := sdInputs_paragraphs ts x hx
      rw [← hxe]
      exact ⟨hp, rfl⟩
    have henum : ∀ ie ∈ es.enum, ie.2.elementType = ParsedElementType.Paragraph ∧
        ie.2.hierarchyLevel = 2 := by
      intro ie hie
      have h2 := List.mem_map_of_mem Prod.snd hie
      rw [List.enum_map_snd] at h2
      exact hfacts ie.2 h2
    have hinv0 : ∀ j node, ([rootNode] : List DocumentNode).get? j = some node → 0 < j →
        node.nodeType = "Paragraph" ∧ node.depth = 2 ∧ node.parent = some 0 := by
      intro j node hj h0
      cases j with
      | zero => omega
      | succ k => simp at hj
    have hfold := buildFold_level2 es.enum [rootNode] henum hinv0
    have hcore := buildFold_core es.enum [rootNode] [0] (by simp)
    have htrans : ∀ j, ((buildGraph es).nodes.get? j).map eraseBC =
        ((es.enum.foldl buildGraphStep ([rootNode], [0])).1.get? j).map eraseBC := by
      intro j
      exact computeBreadcrumbs_get_eraseBC
        { title := none, nodes := (es.enum.foldl buildGraphStep ([rootNode], [0])).1 } j
    constructor
    · have e1 : ((buildGraph es).nodes.get? 0).map (fun n => (n.nodeType, n.depth)) =
          (((buildGraph es).nodes.get? 0).map eraseBC).map (fun n => (n.nodeType, n.depth)) := by
        cases (buildGraph es).nodes.get? 0 <;> rfl
      have e2 : (((es.enum.foldl buildGraphStep ([rootNode], [0])).1.get? 0).map
            eraseBC).map (fun n => (n.nodeType, n.depth)) =
          ((es.enum.foldl buildGraphStep ([rootNode], [0])).1.get? 0).map
            (fun n => (n.nodeType, n.depth)) := by
        cases (es.enum.foldl buildGraphStep ([rootNode], [0])).1.get? 0 <;> rfl
      rw [e1, htrans 0, e2, hcore.2]
      rfl
    · intro j node hj h0
      have hjt := htrans j
      rw [hj] at hjt
      cases hq : (es.enum.foldl buildGraphStep ([rootNode], [0])).1.get? j with
      | none => rw [hq] at hjt; simp at hjt
      | some node' =>
          rw [hq] at hjt
          have hE : eraseBC node = eraseBC node' := by simpa using hjt
          obtain ⟨ht, hd, hpp⟩ := hfold j node' hq h0
          exact ⟨(congrArg DocumentNode.nodeType hE).trans ht,
            (congrArg DocumentNode.depth hE).trans hd,
            (congrArg DocumentNode.parent hE).trans hpp⟩

/-- C7 counterexample: a one-element document whose rule-engine output
contains no Section, yet the single non-root node of the built graph has
depth 2, not depth 1 as the spec claims. -/
theorem C7_counterexample :
    fixNoSectionEls = sectionDetectionApply fixCfgNoPat fixAnalysis fixFsa fixTs1
      (convertTextElementsToParsed fixTs1) ∧
    (∀ e ∈ fixNoSectionEls, e.elementType ≠ ParsedElementType.Section) ∧
    (buildGraph fixNoSectionEls).nodes.length = 2 ∧
    ((buildGraph fixNoSectionEls).nodes.get? 1).map (fun n => n.depth) = some 2 := by
  exact ⟨rfl, by decide, by decide, by decide⟩

/-- C7 witness: the corrected theorem applied to the concrete one-element
document of the counterexample. -/
theorem C7_witness :
    (fixNoSectionEls = sectionDetectionApply fixCfgNoPat fixAnalysis fixFsa fixTs1
      (convertTextElementsToParsed fixTs1)) ∧
    (∀ e ∈ fixNoSectionEls, e.elementType ≠ ParsedElementType.Section) ∧
    ((((buildGraph fixNoSectionEls).nodes.get? 0).map (fun n => (n.nodeType, n.depth)) =
        some ("Document", 0)) ∧
     (∀ j node, (buildGraph fixNoSectionEls).nodes.get? j = some node → 0 < j →
        node.nodeType = "Paragraph" ∧ node.depth = 2 ∧ node.parent = some 0)) :=
  ⟨rfl, by decide,
    C7_no_sections_graph fixCfgNoPat fixAnalysis fixFsa fixTs1 fixNoSectionEls rfl
      (by decide)⟩

/-- `pushChild` preserves the (depth, parent) projection of every entry. -/
lemma pushChild_get_dp (nodes : List DocumentNode) (p c j : Nat) :
    ((pushChild nodes p c).get? j).map (fun n => (n.depth, n.parent)) =
    (nodes.get? j).map (fun n => (n.depth, n.parent)) := by
  unfold pushChild
  cases hp : nodes.get? p with
  | none => rfl
  | some pn =>
      by_cases hj : j = p
      · subst hj
        rw [List.get?_set_eq, hp]
        rfl
      · rw [List.get?_set_ne _ _ (fun h => hj h.symm)]

/-- Extract the depth component from a (depth, parent) projection
equality. -/
lemma dp_depth {o1 o2 : Option DocumentNode}
    (h : o1.map (fun n => (n.depth, n.parent)) = o2.map (fun n => (n.depth, n.parent))) :
    o1.map (fun n => n.depth) = o2.map (fun n => n.depth) := by
  cases o1 with
  | none =>
      cases o2 with
      | none => rfl
      | some b => simp at h
  | some a =>
      cases o2 with
      | none => simp at h
      | some b =>
          simp only [Option.map_some', Option.some.injEq, Prod.mk.injEq] at h
          simp [h.1]

/-- Under the stack invariant, `find_parent` for a level in `[1, h+1]`
returns a parent of depth `level - 1` and truncates the stack to the
first `level` entries. -/
lemma findParent_dense (nodes : List DocumentNode) (stack : List Nat) (h l : Nat)
    (inv : InvC1 nodes stack h) (h1 : 1 ≤ l) (h2 : l ≤ h + 1) :
    ∃ pid, findParent stack l 0 = (pid, stack.take l) ∧
      (nodes.get? pid).map (fun n => n.depth) = some (l - 1) := by
  obtain ⟨-, hlen, h0, hS, -⟩ := inv
  by_cases hle : l ≤ 1
  · have hl : l = 1 := le_antisymm hle h1
    subst hl
    refine ⟨0, ?_, ?_⟩
    · simp [findParent]
    · simpa using hS 0 0 h0
  · have hlt : l - 1 < stack.length := by omega
    have hgets : stack.get? (l - 1) = some (stack.get ⟨l - 1, hlt⟩) := List.get?_eq_get hlt
    refine ⟨stack.get ⟨l - 1, hlt⟩, ?_, hS _ _ hgets⟩
    have htl : (stack.take l).length = l := by
      rw [List.length_take]; omega
    have hlast : (stack.take l).getLast? = some (stack.get ⟨l - 1, hlt⟩) := by
      rw [List.getLast?_eq_get?, htl]
      rw [List.get?_take (by omega : l - 1 < l)]
      exact hgets
    simp [findParent, hle, hlast]

/-- One `build_graph` iteration preserves the C1 stack invariant: a
section at level `l` leaves a dense stack of height `l`, anything else a
dense stack of height `l - 1`, and the new node's parent is the stack
entry of depth `l - 1`. -/
lemma buildGraphStep_dense (nodes : List DocumentNode) (stack : List Nat)
    (h k : Nat) (e : ParsedPdfElement) (l : Nat) (hl : e.hierarchyLevel = l)
    (inv : InvC1 nodes stack h) (h1 : 1 ≤ l) (h2 : l ≤ h + 1) :
    InvC1 (buildGraphStep (nodes, stack) (k, e)).1 (buildGraphStep (nodes, stack) (k, e)).2
      (if e.elementType = ParsedElementType.Section then l else l - 1) := by
  obtain ⟨pid, hfp, hpd⟩ := findParent_dense nodes stack h l inv h1 h2
  obtain ⟨hne, hlen, h0, hS, hP⟩ := inv
  obtain ⟨pn, hpn, hpnd⟩ : ∃ pn, nodes.get? pid = some pn ∧ pn.depth = l - 1 := by
    cases hx : nodes.get? pid with
    | none => rw [hx] at hpd; simp at hpd
    | some pn =>
        rw [hx] at hpd
        simp only [Option.map_some', Option.some.injEq] at hpd
        exact ⟨pn, rfl, hpd⟩
  have hpid_lt : pid < nodes.length := by
    by_contra hc
    rw [List.get?_eq_none.mpr (by omega)] at hpn
    exact Option.noConfusion hpn
  have hstep : buildGraphStep (nodes, stack) (k, e) =
      (pushChild (nodes ++ [{ createNodeFromGroup e k with
          parent := some pid
          depth := l
          textOrder := some k
          path := generateHierarchicalPath nodes pid k }]) pid nodes.length,
       if e.elementType = ParsedElementType.Section then
         (popWhileGE (pushChild (nodes ++ [{ createNodeFromGroup e k with
             parent := some pid
             depth := l
             textOrder := some k
             path := generateHierarchicalPath nodes pid k }]) pid nodes.length)
           l (stack.take l).reverse).reverse ++ [nodes.length]
       else stack.take l) := by
    simp only [buildGraphStep, hl, hfp]
  set fn : DocumentNode := { createNodeFromGroup e k with
      parent := some pid
      depth := l
      textOrder := some k
      path := generateHierarchicalPath nodes pid k } with hfn
  set nodes2 : List DocumentNode := pushChild (nodes ++ [fn]) pid nodes.length with hn2
  have hlen2 : nodes2.length = nodes.length + 1 := by
    rw [hn2, pushChild_length, List.length_append]
    rfl
  have hdp_old : ∀ j, j < nodes.length →
      (nodes2.get? j).map (fun n => (n.depth, n.parent)) =
      (nodes.get? j).map (fun n => (n.depth, n.parent)) := by
    intro j hj
    rw [hn2, pushChild_get_dp, List.get?_append hj]
  have hdp_new : (nodes2.get? nodes.length).map (fun n => (n.depth, n.parent)) =
      some (l, some pid) := by
    rw [hn2, pushChild_get_dp, List.get?_append_right (le_refl _)]
    simp [hfn]
  have hdepth_old : ∀ j, j < nodes.length →
      (nodes2.get? j).map (fun n => n.depth) = (nodes.get? j).map (fun n => n.depth) :=
    fun j hj => dp_depth (hdp_old j hj)
  have hnew_depth : (nodes2.get? nodes.length).map (fun n => n.depth) = some l := by
    cases hy : nodes2.get? nodes.length with
    | none => rw [hy] at hdp_new; simp at hdp_new
    | some n =>
        rw [hy] at hdp_new
        simp only [Option.map_some', Option.some.injEq, Prod.mk.injEq] at hdp_new
        rw [Option.map_some', hdp_new.1]
  have htl : (stack.take l).length = l := by
    rw [List.length_take]; omega
  have htake_get : ∀ t, t < l → (stack.take l).get? t = stack.get? t :=
    fun t ht => List.get?_take ht
  have hstackOK : ∀ t sid, (stack.take l).get? t = some sid →
      (nodes2.get? sid).map (fun n => n.depth) = some t := by
    intro t sid hts
    have htlt : t < l := by
      by_contra hc
      rw [List.get?_eq_none.mpr (by rw [htl]; omega)] at hts
      exact Option.noConfusion hts
    rw [htake_get t htlt] at hts
    have hd := hS t sid hts
    have hsid_lt : sid < nodes.length := by
      by_contra hc
      rw [List.get?_eq_none.mpr (by omega)] at hd
      simp at hd
    rw [hdepth_old sid hsid_lt]
    exact hd
  have hParent2 : ∀ j node, nodes2.get? j = some node → 0 < j →
      ∃ p pnode, node.parent = some p ∧ nodes2.get? p = some pnode ∧
        node.depth = pnode.depth + 1 := by
    intro j node hj hj0
    by_cases hlt : j < nodes.length
    · have hdpj := hdp_old j hlt
      rw [hj] at hdpj
      cases hx : nodes.get? j with
      | none => rw [hx] at hdpj; simp at hdpj
      | some node0 =>
          rw [hx] at hdpj
          simp only [Option.map_some', Option.some.injEq, Prod.mk.injEq] at hdpj
          obtain ⟨hdj, hpj⟩ := hdpj
          obtain ⟨p, pnode, hp1, hp2, hp3⟩ := hP j node0 hx hj0
          have hplt : p < nodes.length := by
            by_contra hc
            rw [List.get?_eq_none.mpr (by omega)] at hp2
            exact Option.noConfusion hp2
          have hdpp := hdp_old p hplt
          rw [hp2] at hdpp
          cases hy : nodes2.get? p with
          | none => rw [hy] at hdpp; simp at hdpp
          | some pnode2 =>
              rw [hy] at hdpp
              simp only [Option.map_some', Option.some.injEq, Prod.mk.injEq] at hdpp
              exact ⟨p, pnode2, hpj.trans hp1, hy, by omega⟩
    · have hj_lt2 : j < nodes2.length := by
        by_contra hc
        rw [List.get?_eq_none.mpr (by omega)] at hj
        exact Option.noConfusion hj
      have hjeq : j = nodes.length := by omega
      subst hjeq
      have hdpn := hdp_new
      rw [hj] at hdpn
      simp only [Option.map_some', Option.some.injEq, Prod.mk.injEq] at hdpn
      obtain ⟨hdj, hpj⟩ := hdpn
      have hdpp := hdp_old pid hpid_lt
      rw [hpn] at hdpp
      cases hy : nodes2.get? pid with
      | none => rw [hy] at hdpp; simp at hdpp
      | some pnode2 =>
          rw [hy] at hdpp
          simp only [Option.map_some', Option.some.injEq, Prod.mk.injEq] at hdpp
          exact ⟨pid, pnode2, hpj, hy, by omega⟩
  rw [hstep]
  by_cases hsec : e.elementType = ParsedElementType.Section
  · rw [if_pos hsec]
    have hpop : popWhileGE nodes2 l (stack.take l).reverse = (stack.take l).reverse := by
      cases hrev : (stack.take l).reverse with
      | nil => rfl
      | cons sid rest =>
          have hlast : (stack.take l).getLast? = some sid := by
            rw [← List.head?_reverse, hrev]
            rfl
          have hidx : (stack.take l).get? (l - 1) = some sid := by
            have hg := List.getLast?_eq_get? (stack.take l)
            rw [htl] at hg
            rw [← hg]
            exact hlast
          have hd := hstackOK (l - 1) sid hidx
          simp only [popWhileGE]
          cases hz : nodes2.get? sid with
          | none => simp [hz]
          | some n =>
              rw [hz] at hd
              simp only [Option.map_some', Option.some.injEq] at hd
              have hnd : ¬ n.depth ≥ l := by omega
              simp [hz, hnd]
    rw [if_pos hsec, hpop, List.reverse_reverse]
    show InvC1 nodes2 (stack.take l ++ [nodes.length]) l
    refine ⟨by omega, ?_, ?_, ?_, hParent2⟩
    · rw [List.length_append, htl]
      rfl
    · rw [List.get?_append (by rw [htl]; omega)]
      rw [htake_get 0 (by omega)]
      exact h0
    · intro t sid hts
      by_cases htlt : t < l
      · rw [List.get?_append (by rw [htl]; exact htlt)] at hts
        exact hstackOK t sid hts
      · have hts_lt : t < l + 1 := by
          by_contra hc
          rw [List.get?_eq_none.mpr (by rw [List.length_append, htl]; simp; omega)] at hts
          exact Option.noConfusion hts
        have hteq : t = l := by omega
        subst hteq
        rw [List.get?_append_right (by rw [htl]), htl] at hts
        simp only [Nat.sub_self, List.get?_cons_zero, Option.some.injEq] at hts
        rw [← hts]
        exact hnew_depth
  · rw [if_neg hsec, if_neg hsec]
    show InvC1 nodes2 (stack.take l) (l - 1)
    refine ⟨by omega, by rw [htl]; omega, ?_, hstackOK, hParent2⟩
    rw [htake_get 0 (by omega)]
    exact h0

/-- The whole `build_graph` fold preserves the C1 invariant for level
sequences accepted by `okLevels`. -/
lemma buildFold_dense :
    ∀ (ps : List (Nat × ParsedPdfElement)) (h : Nat) (nodes : List DocumentNode)
      (stack : List Nat),
      okLevels h (ps.map Prod.snd) = true →
      InvC1 nodes stack h →
      ∃ h', InvC1 (ps.foldl buildGraphStep (nodes, stack)).1
        (ps.foldl buildGraphStep (nodes, stack)).2 h' := by
  intro ps
  induction ps with
  | nil => intro h nodes stack _ inv; exact ⟨h, inv⟩
  | cons p t ih =>
      intro h nodes stack hok inv
      simp only [List.map_cons, okLevels, Bool.and_eq_true, decide_eq_true_eq] at hok
      obtain ⟨⟨hl1, hl2⟩, hok'⟩ := hok
      have hstep := buildGraphStep_dense nodes stack h p.1 p.2 p.2.hierarchyLevel rfl
        inv hl1 hl2
      rw [Prod.mk.eta] at hstep
      obtain ⟨h', hinv'⟩ := ih
        (if p.2.elementType = ParsedElementType.Section then p.2.hierarchyLevel
         else p.2.hierarchyLevel - 1)
        (buildGraphStep (nodes, stack) p).1 (buildGraphStep (nodes, stack) p).2 hok' hstep
      rw [Prod.mk.eta] at hinv'
      rw [List.foldl_cons]
      exact ⟨h', hinv'⟩

/-- C1: the spec's invariant I4 — depth(node) = depth(parent) + 1 for
every node — is FALSE for arbitrary `build_graph` inputs: a level-2
element with no preceding section (exactly what the pipeline emits for a
sectionless document, see C7) is attached to the depth-0 root but gets
depth 2.  Proved here in the corrected form: whenever the input level
sequence is dense in the sense of `okLevels` (each level lies in
`[1, h+1]` for the running open-section height `h`), the Document root
has depth 0 and every non-root node's depth is exactly one greater than
its parent's depth. -/
theorem C1_depth_parent (es : List ParsedPdfElement)
    (hok : okLevels 0 es = true) :
    (((buildGraph es).nodes.get? 0).map (fun n => n.depth) = some 0) ∧
    (∀ j node, (buildGraph es).nodes.get? j = some node → 0 < j →
      ∃ p pnode, node.parent = some p ∧ (buildGraph es).nodes.get? p = some pnode ∧
        node.depth = pnode.depth + 1) := by
  have hok' : okLevels 0 (es.enum.map Prod.snd) = true := by
    rw [List.enum_map_snd]; exact hok
  have hinv0 : InvC1 [rootNode] [0] 0 := by
    refine ⟨by simp, rfl, rfl, ?_, ?_⟩
    · intro t sid hts
      cases t with
      | zero =>
          simp only [List.get?_cons_zero, Option.some.injEq] at hts
          rw [← hts]
          rfl
      | succ u => simp at hts
    · intro j node hj h0
      cases j with
      | zero => omega
      | succ u => simp at hj
  obtain ⟨h', hinv⟩ := buildFold_dense es.enum 0 [rootNode] [0] hok' hinv0
  obtain ⟨-, -, hst0, hSd, hPar⟩ := hinv
  have htrans : ∀ j, ((buildGraph es).nodes.get? j).map eraseBC =
      ((es.enum.foldl buildGraphStep ([rootNode], [0])).1.get? j).map eraseBC := by
    intro j
    exact computeBreadcrumbs_get_eraseBC
      { title := none, nodes := (es.enum.foldl buildGraphStep ([rootNode], [0])).1 } j
  constructor
  · have hd0 := hSd 0 0 hst0
    have h0t := htrans 0
    cases hy : (buildGraph es).nodes.get? 0 with
    | none =>
        rw [hy] at h0t
        cases hx : (es.enum.foldl buildGraphStep ([rootNode], [0])).1.get? 0 with
        | none => rw [hx] at hd0; simp at hd0
        | some n0 => rw [hx] at h0t; simp at h0t
    | some m0 =>
        rw [hy] at h0t
        cases hx : (es.enum.foldl buildGraphStep ([rootNode], [0])).1.get? 0 with
        | none => rw [hx] at hd0; simp at hd0
        | some n0 =>
            rw [hx] at h0t
            rw [hx] at hd0
            simp only [Option.map_some', Option.some.injEq] at h0t hd0
            rw [Option.map_some', Option.some.injEq]
            exact (congrArg DocumentNode.depth h0t).trans hd0
  · intro j node hj hj0
    have hjt := htrans j
    rw [hj] at hjt
    cases hq : (es.enum.foldl buildGraphStep ([rootNode], [0])).1.get? j with
    | none => rw [hq] at hjt; simp at hjt
    | some node0 =>
        rw [hq] at hjt
        simp only [Option.map_some', Option.some.injEq] at hjt
        obtain ⟨p, pnode, hp1, hp2, hp3⟩ := hPar j node0 hq hj0
        have hpt := htrans p
        rw [hp2] at hpt
        cases hz : (buildGraph es).nodes.get? p with
        | none => rw [hz] at hpt; simp at hpt
        | some pnode2 =>
            rw [hz] at hpt
            simp only [Option.map_some', Option.some.injEq] at hpt
            refine ⟨p, pnode2, ?_, hz, ?_⟩
            · exact (congrArg DocumentNode.parent hjt).trans hp1
            · have hd1e := congrArg DocumentNode.depth hjt
              have hd2e := congrArg DocumentNode.depth hpt
              have hd1 : node.depth = node0.depth := hd1e
              have hd2 : pnode2.depth = pnode.depth := hd2e
              omega

/-- C1 counterexample: a single level-2 paragraph (the pipeline's own
output for a sectionless document) is attached to the depth-0 root while
receiving depth 2, violating depth(node) = depth(parent) + 1. -/
theorem C1_counterexample :
    ((buildGraph fixC1Els).nodes.get? 1).map (fun n => n.parent) = some (some 0) ∧
    ((buildGraph fixC1Els).nodes.get? 1).map (fun n => n.depth) ≠
      ((buildGraph fixC1Els).nodes.get? 0).map (fun n => n.depth + 1) := by
  exact ⟨by decide, by decide⟩

/-- C1 witness: the corrected theorem applied to a dense two-element
sequence (a level-1 section followed by a level-2 paragraph). -/
theorem C1_witness :
    okLevels 0 fixDenseEls = true ∧
    ((((buildGraph fixDenseEls).nodes.get? 0).map (fun n => n.depth) = some 0) ∧
     (∀ j node, (buildGraph fixDenseEls).nodes.get? j = some node → 0 < j →
       ∃ p pnode, node.parent = some p ∧
         (buildGraph fixDenseEls).nodes.get? p = some pnode ∧
         node.depth = pnode.depth + 1)) :=
  ⟨by decide, C1_depth_parent fixDenseEls (by decide)⟩

/-- Entrywise form of an `eraseBC` map equality. -/
lemma eraseBC_map_get {ns ms : List DocumentNode}
    (h : ns.map eraseBC = ms.map eraseBC) (j : Nat) :
    (ns.get? j).map eraseBC = (ms.get? j).map eraseBC := by
  have h2 := congrArg (fun l => l.get? j) h
  simpa [List.get?_map] using h2

/-- `eraseBC`-equal node lists have the same length. -/
lemma length_congr {ns ms : List DocumentNode}
    (h : ns.map eraseBC = ms.map eraseBC) : ns.length = ms.length := by
  have h2 := congrArg List.length h
  simpa using h2

/-- `eraseBC`-equal node lists have the same children lists. -/
lemma childrenOf_congr {ns ms : List DocumentNode}
    (h : ns.map eraseBC = ms.map eraseBC) (j : Nat) :
    childrenOf ns j = childrenOf ms j := by
  have hg := eraseBC_map_get h j
  unfold childrenOf
  cases h1 : ns.get? j with
  | none =>
      cases h2 : ms.get? j with
      | none => rfl
      | some b => rw [h1, h2] at hg; simp at hg
  | some a =>
      cases h2 : ms.get? j with
      | none => rw [h1, h2] at hg; simp at hg
      | some b =>
          rw [h1, h2] at hg
          simp only [Option.map_some', Option.some.injEq] at hg
          simp only [Option.map_some', Option.getD_some]
          have hc := congrArg DocumentNode.children hg
          exact hc

/-- `eraseBC`-equal node lists have the same parent pointers. -/
lemma parentOf_congr {ns ms : List DocumentNode}
    (h : ns.map eraseBC = ms.map eraseBC) (j : Nat) :
    parentOf ns j = parentOf ms j := by
  have hg := eraseBC_map_get h j
  unfold parentOf
  cases h1 : ns.get? j with
  | none =>
      cases h2 : ms.get? j with
      | none => rfl
      | some b => rw [h1, h2] at hg; simp at hg
  | some a =>
      cases h2 : ms.get? j with
      | none => rw [h1, h2] at hg; simp at hg
      | some b =>
          rw [h1, h2] at hg
          simp only [Option.map_some', Option.some.injEq] at hg
          simp only [Option.some_bind]
          have hp := congrArg DocumentNode.parent hg
          exact hp

/-- `eraseBC`-equal node lists have the same breadcrumb contributions. -/
lemma crumbOf_congr {ns ms : List DocumentNode}
    (h : ns.map eraseBC = ms.map eraseBC) (j : Nat) :
    crumbOf ns j = crumbOf ms j := by
  have hg := eraseBC_map_get h j
  unfold crumbOf
  cases h1 : ns.get? j with
  | none =>
      cases h2 : ms.get? j with
      | none => rfl
      | some b => rw [h1, h2] at hg; simp at hg
  | some a =>
      cases h2 : ms.get? j with
      | none => rw [h1, h2] at hg; simp at hg
      | some b =>
          rw [h1, h2] at hg
          simp only [Option.map_some', Option.some.injEq] at hg
          have ht := congrArg DocumentNode.nodeType hg
          have ht' : a.nodeType = b.nodeType := ht
          have hx := congrArg DocumentNode.text hg
          have hx' : a.text = b.text := hx
          show (if a.nodeType = "Section" then [a.text] else []) =
            (if b.nodeType = "Section" then [b.text] else [])
          rw [ht', hx']

/-- A well-formed node list is nonempty. -/
lemma wf_len (nodes : List DocumentNode) (wf : wellFormedB nodes = true) :
    0 < nodes.length := by
  simp only [wellFormedB, Bool.and_eq_true] at wf
  have h := wf.1.1.1
  simp only [Bool.not_eq_true'] at h
  rcases nodes with _ | ⟨a, t⟩
  · simp at h
  · simp

/-- Every non-root node of a well-formed list has a smaller-index parent
whose children list contains it. -/
lemma wf_parent (nodes : List DocumentNode) (wf : wellFormedB nodes = true) :
    ∀ j, 0 < j → j < nodes.length →
      ∃ p, parentOf nodes j = some p ∧ p < j ∧ j ∈ childrenOf nodes p := by
  intro j hj0 hjlen
  simp only [wellFormedB, Bool.and_eq_true, List.all_eq_true] at wf
  have h := wf.1.1.2 j (List.mem_range.mpr hjlen)
  rw [Bool.or_eq_true] at h
  rcases h with h | h
  · rw [beq_iff_eq] at h; omega
  · cases hp : parentOf nodes j with
    | none => rw [hp] at h; simp at h
    | some p =>
        rw [hp] at h
        simp only [Bool.and_eq_true, decide_eq_true_eq] at h
        exact ⟨p, rfl, h.1, h.2⟩

/-- Every child entry of a well-formed list is a valid non-root node
whose parent pointer points back. -/
lemma wf_child (nodes : List DocumentNode) (wf : wellFormedB nodes = true) :
    ∀ p c, p < nodes.length → c ∈ childrenOf nodes p →
      c < nodes.length ∧ 0 < c ∧ parentOf nodes c = some p := by
  intro p c hp hc
  simp only [wellFormedB, Bool.and_eq_true, List.all_eq_true] at wf
  have h := wf.1.2 p (List.mem_range.mpr hp) c hc
  simp only [Bool.and_eq_true, decide_eq_true_eq] at h
  exact ⟨h.1.1, h.1.2, h.2⟩

/-- Children lists of a well-formed node list have no duplicates. -/
lemma wf_nodup (nodes : List DocumentNode) (wf : wellFormedB nodes = true) :
    ∀ p, p < nodes.length → (childrenOf nodes p).Nodup := by
  intro p hp
  simp only [wellFormedB, Bool.and_eq_true, List.all_eq_true] at wf
  have h := wf.2 p (List.mem_range.mpr hp)
  exact of_decide_eq_true h

/-- An index past the end has no children. -/
lemma childrenOf_ge (nodes : List DocumentNode) (p : Nat)
    (h : nodes.length ≤ p) : childrenOf nodes p = [] := by
  unfold childrenOf
  rw [List.get?_eq_none.mpr h]
  rfl

/-- Facts carried by a single child edge in a well-formed list. -/
lemma childStep_facts (nodes : List DocumentNode) (wf : wellFormedB nodes = true) :
    ∀ a b, childStep nodes a b →
      parentOf nodes b = some a ∧ a < b ∧ b < nodes.length ∧ 0 < b := by
  intro a b hab
  have hab' : b ∈ childrenOf nodes a := hab
  have halen : a < nodes.length := by
    by_contra hc
    rw [childrenOf_ge nodes a (by omega)] at hab'
    exact absurd hab' (List.not_mem_nil b)
  obtain ⟨hblen, hb0, hpar⟩ := wf_child nodes wf a b halen hab'
  obtain ⟨p, hp, hplt, -⟩ := wf_parent nodes wf b hb0 hblen
  have hpa : p = a := Option.some.inj (hp.symm.trans hpar)
  subst hpa
  exact ⟨hp, hplt, hblen, hb0⟩

/-- Reachability along child edges only moves to larger indices. -/
lemma reaches_le (nodes : List DocumentNode) (wf : wellFormedB nodes = true) :
    ∀ a b, reaches nodes a b → a ≤ b := by
  intro a b h
  have h' : Relation.ReflTransGen (childStep nodes) a b := h
  clear h
  induction h' with
  | refl => exact le_refl a
  | tail h1 h2 ih =>
      have := (childStep_facts nodes wf _ _ h2).2.1
      omega

/-- Two ancestors of the same node are comparable: the ancestor chain of
any node is unique because parent pointers are functional. -/
lemma chains_comparable (nodes : List DocumentNode) (wf : wellFormedB nodes = true) :
    ∀ j a b, reaches nodes a j → reaches nodes b j →
      reaches nodes a b ∨ reaches nodes b a := by
  intro j
  induction j using Nat.strong_induction_on with
  | _ j ih =>
      intro a b ha hb
      rcases Relation.ReflTransGen.cases_tail ha with heq | ⟨m1, hm1, hs1⟩
      · subst heq
        exact Or.inr hb
      · rcases Relation.ReflTransGen.cases_tail hb with heq2 | ⟨m2, hm2, hs2⟩
        · subst heq2
          exact Or.inl ha
        · have f1 := childStep_facts nodes wf m1 j hs1
          have f2 := childStep_facts nodes wf m2 j hs2
          have hm : m1 = m2 := Option.some.inj (f1.1.symm.trans f2.1)
          subst hm
          exact ih m1 f1.2.1 a b hm1 hm2

/-- A child's subtree never reaches a distinct sibling. -/
lemma reach_child_absurd (nodes : List DocumentNode) (wf : wellFormedB nodes = true)
    {c ch1 ch2 : Nat} (h1 : childStep nodes c ch1) (h2 : childStep nodes c ch2)
    (hne : ch1 ≠ ch2) (hr : reaches nodes ch1 ch2) : False := by
  rcases Relation.ReflTransGen.cases_tail hr with heq | ⟨m, hm, hs⟩
  · exact hne heq.symm
  · have fm := childStep_facts nodes wf m ch2 hs
    have f2 := childStep_facts nodes wf c ch2 h2
    have hmc : m = c := Option.some.inj (fm.1.symm.trans f2.1)
    rw [hmc] at hm
    have hle := reaches_le nodes wf _ _ hm
    have f1 := childStep_facts nodes wf c ch1 h1
    omega

/-- Subtrees of distinct siblings are disjoint. -/
lemma siblings_disjoint (nodes : List DocumentNode) (wf : wellFormedB nodes = true)
    {c ch1 ch2 j : Nat} (h1 : childStep nodes c ch1) (h2 : childStep nodes c ch2)
    (hne : ch1 ≠ ch2) (ha : reaches nodes ch1 j) (hb : reaches nodes ch2 j) : False := by
  rcases chains_comparable nodes wf j ch1 ch2 ha hb with h | h
  · exact reach_child_absurd nodes wf h1 h2 hne h
  · exact reach_child_absurd nodes wf h2 h1 hne.symm h

lemma pbFold_nil (fuel : Nat) (bc : List String) (acc : List DocumentNode) :
    pbFold fuel bc [] acc = acc := rfl

lemma pbFold_cons (fuel : Nat) (bc : List String) (ch : Nat) (cs : List Nat)
    (acc : List DocumentNode) :
    pbFold fuel bc (ch :: cs) acc =
    pbFold fuel bc cs (propagateBreadcrumbs fuel acc ch bc) := rfl

/-- Full specification of `propagate_breadcrumbs` on a well-formed
skeleton: nodes outside the subtree of the visited node are untouched,
the visited node gets the parent trail plus its own crumb, and every
strict descendant gets its parent's final trail plus its own crumb. -/
lemma propagate_spec (nodes0 : List DocumentNode) (wf : wellFormedB nodes0 = true) :
    ∀ (fuel : Nat) (c : Nat) (ns : List DocumentNode) (pbc : List String),
      ns.map eraseBC = nodes0.map eraseBC →
      c < nodes0.length →
      nodes0.length - c ≤ fuel →
      ((∀ j, ¬ reaches nodes0 c j →
          (propagateBreadcrumbs fuel ns c pbc).get? j = ns.get? j) ∧
       (((propagateBreadcrumbs fuel ns c pbc).get? c).map (fun x => x.breadcrumbs) =
          some (pbc ++ crumbOf nodes0 c)) ∧
       (∀ j, reaches nodes0 c j → j ≠ c →
          ∃ p, parentOf nodes0 j = some p ∧ reaches nodes0 c p ∧
            ((propagateBreadcrumbs fuel ns c pbc).get? j).map (fun x => x.breadcrumbs) =
            (((propagateBreadcrumbs fuel ns c pbc).get? p).map
              (fun x => x.breadcrumbs)).map (fun b => b ++ crumbOf nodes0 j))) := by
  intro fuel
  induction fuel with
  | zero =>
      intro c ns pbc hns hc hf
      exact absurd hf (by omega)
  | succ F ih =>
      intro c ns pbc hns hc hf
      have hlen : ns.length = nodes0.length := length_congr hns
      have hcn : c < ns.length := by omega
      obtain ⟨n, hn⟩ : ∃ n, ns.get? c = some n := ⟨ns.get ⟨c, hcn⟩, List.get?_eq_get hcn⟩
      have hcr : crumbOf nodes0 c = (if n.nodeType = "Section" then [n.text] else []) := by
        rw [← crumbOf_congr hns c]
        unfold crumbOf
        rw [hn]
      have hnbc : (if n.nodeType = "Section" then pbc ++ [n.text] else pbc) =
          pbc ++ crumbOf nodes0 c := by
        rw [hcr]
        by_cases hsec : n.nodeType = "Section"
        · rw [if_pos hsec, if_pos hsec]
        · rw [if_neg hsec, if_neg hsec, List.append_nil]
      have hch_eq : n.children = childrenOf nodes0 c := by
        rw [← childrenOf_congr hns c]
        unfold childrenOf
        rw [hn]
        rfl
      have hunfold : propagateBreadcrumbs (F + 1) ns c pbc =
          pbFold F (if n.nodeType = "Section" then pbc ++ [n.text] else pbc) n.children
            (ns.set c { n with breadcrumbs :=
              if n.nodeType = "Section" then pbc ++ [n.text] else pbc }) := by
        simp only [propagateBreadcrumbs, hn]
        rfl
      have hns1 : (ns.set c { n with breadcrumbs :=
          if n.nodeType = "Section" then pbc ++ [n.text] else pbc }).map eraseBC =
          nodes0.map eraseBC := by
        rw [List.map_set]
        rw [set_same _ _ _ (by rw [List.get?_map, hn]; rfl)]
        exact hns
      have hns1_get_c : (ns.set c { n with breadcrumbs :=
          if n.nodeType = "Section" then pbc ++ [n.text] else pbc }).get? c =
          some { n with breadcrumbs :=
            if n.nodeType = "Section" then pbc ++ [n.text] else pbc } := by
        rw [List.get?_set_eq, hn]
        rfl
      have hns1_get_ne : ∀ j, j ≠ c → (ns.set c { n with breadcrumbs :=
          if n.nodeType = "Section" then pbc ++ [n.text] else pbc }).get? j =
          ns.get? j := by
        intro j hj
        exact List.get?_set_ne _ _ (fun hh => hj hh.symm)
      have hfold : ∀ (cs : List Nat), (∀ ch ∈ cs, childStep nodes0 c ch) → cs.Nodup →
          ∀ (acc : List DocumentNode), acc.map eraseBC = nodes0.map eraseBC →
          ((pbFold F (if n.nodeType = "Section" then pbc ++ [n.text] else pbc)
              cs acc).map eraseBC = nodes0.map eraseBC) ∧
          (∀ j, (∀ ch ∈ cs, ¬ reaches nodes0 ch j) →
            (pbFold F (if n.nodeType = "Section" then pbc ++ [n.text] else pbc)
              cs acc).get? j = acc.get? j) ∧
          (∀ ch, ch ∈ cs → ∀ j, reaches nodes0 ch j →
            ((j = ch →
              ((pbFold F (if n.nodeType = "Section" then pbc ++ [n.text] else pbc)
                cs acc).get? j).map (fun x => x.breadcrumbs) =
               some ((if n.nodeType = "Section" then pbc ++ [n.text] else pbc) ++
                 crumbOf nodes0 j)) ∧
             (j ≠ ch → ∃ p, parentOf nodes0 j = some p ∧ reaches nodes0 ch p ∧
               ((pbFold F (if n.nodeType = "Section" then pbc ++ [n.text] else pbc)
                 cs acc).get? j).map (fun x => x.breadcrumbs) =
               (((pbFold F (if n.nodeType = "Section" then pbc ++ [n.text] else pbc)
                 cs acc).get? p).map (fun x => x.breadcrumbs)).map
                 (fun b => b ++ crumbOf nodes0 j)))) := by
        intro cs
        induction cs with
        | nil =>
            intro _ _ acc hacc
            exact ⟨hacc, fun j _ => rfl, fun ch hch => absurd hch (List.not_mem_nil ch)⟩
        | cons ch rest ihc =>
            intro hcs hnd acc hacc
            have hch : childStep nodes0 c ch := hcs ch (List.mem_cons_self ch rest)
            have fch := childStep_facts nodes0 wf c ch hch
            obtain ⟨hP1, hP2, hP3⟩ := ih ch acc
              (if n.nodeType = "Section" then pbc ++ [n.text] else pbc)
              hacc fch.2.2.1 (by omega)
            have hacc' : (propagateBreadcrumbs F acc ch
                (if n.nodeType = "Section" then pbc ++ [n.text] else pbc)).map eraseBC =
                nodes0.map eraseBC := by
              rw [propagate_eraseBC]
              exact hacc
            obtain ⟨hQ1, hQ2, hQ3⟩ := ihc (fun x hx => hcs x (List.mem_cons_of_mem ch hx))
              hnd.of_cons (propagateBreadcrumbs F acc ch
                (if n.nodeType = "Section" then pbc ++ [n.text] else pbc)) hacc'
            have hchnot : ch ∉ rest := (List.nodup_cons.mp hnd).1
            have hpres : ∀ j, reaches nodes0 ch j →
                (pbFold F (if n.nodeType = "Section" then pbc ++ [n.text] else pbc) rest
                  (propagateBreadcrumbs F acc ch
                    (if n.nodeType = "Section" then pbc ++ [n.text] else pbc))).get? j =
                (propagateBreadcrumbs F acc ch
                  (if n.nodeType = "Section" then pbc ++ [n.text] else pbc)).get? j := by
              intro j hr
              refine hQ2 j ?_
              intro x hx hr'
              exact siblings_disjoint nodes0 wf (hcs x (List.mem_cons_of_mem ch hx)) hch
                (fun he => hchnot (he ▸ hx)) hr' hr
            refine ⟨?_, ?_, ?_⟩
            · rw [pbFold_cons]
              exact hQ1
            · intro j hnone
              rw [pbFold_cons]
              rw [hQ2 j (fun x hx => hnone x (List.mem_cons_of_mem ch hx))]
              exact hP1 j (hnone ch (List.mem_cons_self ch rest))
            · intro x hx j hr
              rcases List.mem_cons.mp hx with heq | hmem
              · subst heq
                constructor
                · intro hjch
                  rw [pbFold_cons, hpres j hr]
                  subst hjch
                  exact hP2
                · intro hjch
                  obtain ⟨p, hp1, hp2, hp3⟩ := hP3 j hr hjch
                  refine ⟨p, hp1, hp2, ?_⟩
                  rw [pbFold_cons, hpres j hr, hpres p hp2]
                  exact hp3
              · have hthis := hQ3 x hmem j hr
                constructor
                · intro hjch
                  rw [pbFold_cons]
                  exact hthis.1 hjch
                · intro hjch
                  rw [pbFold_cons]
                  obtain ⟨p, hp1, hp2, hp3⟩ := hthis.2 hjch
                  exact ⟨p, hp1, hp2, hp3⟩
      obtain ⟨hF1, hF2, hF3⟩ := hfold n.children
        (fun ch hch => by rw [hch_eq] at hch; exact hch)
        (by rw [hch_eq]; exact wf_nodup nodes0 wf c hc)
        (ns.set c { n with breadcrumbs :=
          if n.nodeType = "Section" then pbc ++ [n.text] else pbc })
        hns1
      rw [hunfold]
      have hcc : ∀ ch ∈ n.children, ¬ reaches nodes0 ch c := by
        intro ch hchm hr
        have hstepc : childStep nodes0 c ch := by rw [hch_eq] at hchm; exact hchm
        have h1 := reaches_le nodes0 wf _ _ hr
        have h2 := (childStep_facts nodes0 wf c ch hstepc).2.1
        omega
      have hG2 : ((pbFold F (if n.nodeType = "Section" then pbc ++ [n.text] else pbc)
          n.children (ns.set c { n with breadcrumbs :=
            if n.nodeType = "Section" then pbc ++ [n.text] else pbc })).get? c).map
          (fun x => x.breadcrumbs) = some (pbc ++ crumbOf nodes0 c) := by
        rw [hF2 c hcc, hns1_get_c]
        show some (if n.nodeType = "Section" then pbc ++ [n.text] else pbc) = _
        rw [hnbc]
      refine ⟨?_, hG2, ?_⟩
      · intro j hnr
        have hnone : ∀ ch ∈ n.children, ¬ reaches nodes0 ch j := by
          intro ch hchm hr
          have hstepc : childStep nodes0 c ch := by rw [hch_eq] at hchm; exact hchm
          exact hnr (Relation.ReflTransGen.head hstepc hr)
        have hjc : j ≠ c := fun h => hnr (h ▸ Relation.ReflTransGen.refl)
        rw [hF2 j hnone, hns1_get_ne j hjc]
      · intro j hreach hj
        rcases Relation.ReflTransGen.cases_head hreach with heq | ⟨ch, hstep, hreach'⟩
        · exact absurd heq.symm hj
        · have hchm : ch ∈ n.children := by rw [hch_eq]; exact hstep
          have hboth := hF3 ch hchm j hreach'
          by_cases hjc : j = ch
          · refine ⟨c, ?_, Relation.ReflTransGen.refl, ?_⟩
            · rw [hjc]
              exact (childStep_facts nodes0 wf c ch hstep).1
            · rw [hboth.1 hjc, hG2, hnbc]
              rfl
          · obtain ⟨p, hp1, hp2, hp3⟩ := hboth.2 hjc
            exact ⟨p, hp1, Relation.ReflTransGen.head hstep hp2, hp3⟩

/-- Reading a parent pointer through a known entry. -/
lemma parentOf_eq_node {ns : List DocumentNode} {j : Nat} {node : DocumentNode}
    (h : ns.get? j = some node) : parentOf ns j = node.parent := by
  unfold parentOf
  rw [h]
  rfl

/-- Reading a breadcrumb contribution through a known entry. -/
lemma crumbOf_eq_node {ns : List DocumentNode} {j : Nat} {node : DocumentNode}
    (h : ns.get? j = some node) :
    crumbOf ns j = if node.nodeType = "Section" then [node.text] else [] := by
  unfold crumbOf
  rw [h]

/-- In a well-formed list the root reaches every valid index. -/
lemma root_reaches (nodes : List DocumentNode) (wf : wellFormedB nodes = true) :
    ∀ j, j < nodes.length → reaches nodes 0 j := by
  intro j
  induction j using Nat.strong_induction_on with
  | _ j ih =>
      intro hj
      cases Nat.eq_zero_or_pos j with
      | inl h =>
          subst h
          exact Relation.ReflTransGen.refl
      | inr h =>
          obtain ⟨p, hp, hplt, hmem⟩ := wf_parent nodes wf j h hj
          exact Relation.ReflTransGen.tail (ih p (by omega) (by omega)) hmem

/-- `propagate_spec` lifted over a fold across a duplicate-free list of
siblings: subtrees of the listed children get their trails, everything
else is untouched. -/
lemma pbFold_spec (nodes0 : List DocumentNode) (wf : wellFormedB nodes0 = true)
    (F : Nat) (nbc : List String) :
    ∀ (cs : List Nat) (c : Nat), (∀ ch ∈ cs, childStep nodes0 c ch) → cs.Nodup →
      (∀ ch ∈ cs, nodes0.length - ch ≤ F) →
      ∀ (acc : List DocumentNode), acc.map eraseBC = nodes0.map eraseBC →
      ((pbFold F nbc cs acc).map eraseBC = nodes0.map eraseBC) ∧
      (∀ j, (∀ ch ∈ cs, ¬ reaches nodes0 ch j) →
        (pbFold F nbc cs acc).get? j = acc.get? j) ∧
      (∀ ch, ch ∈ cs → ∀ j, reaches nodes0 ch j →
        ((j = ch → ((pbFold F nbc cs acc).get? j).map (fun x => x.breadcrumbs) =
            some (nbc ++ crumbOf nodes0 j)) ∧
         (j ≠ ch → ∃ p, parentOf nodes0 j = some p ∧ reaches nodes0 ch p ∧
            ((pbFold F nbc cs acc).get? j).map (fun x => x.breadcrumbs) =
            (((pbFold F nbc cs acc).get? p).map (fun x => x.breadcrumbs)).map
              (fun b => b ++ crumbOf nodes0 j)))) := by
  intro cs
  induction cs with
  | nil =>
      intro c _ _ _ acc hacc
      exact ⟨hacc, fun j _ => rfl, fun ch hch => absurd hch (List.not_mem_nil ch)⟩
  | cons ch rest ihc =>
      intro c hcs hnd hfuels acc hacc
      have hch : childStep nodes0 c ch := hcs ch (List.mem_cons_self ch rest)
      have fch := childStep_facts nodes0 wf c ch hch
      obtain ⟨hP1, hP2, hP3⟩ := propagate_spec nodes0 wf F ch acc nbc hacc fch.2.2.1
        (hfuels ch (List.mem_cons_self ch rest))
      have hacc' : (propagateBreadcrumbs F acc ch nbc).map eraseBC =
          nodes0.map eraseBC := by
        rw [propagate_eraseBC]
        exact hacc
      obtain ⟨hQ1, hQ2, hQ3⟩ := ihc c (fun x hx => hcs x (List.mem_cons_of_mem ch hx))
        hnd.of_cons (fun x hx => hfuels x (List.mem_cons_of_mem ch hx))
        (propagateBreadcrumbs F acc ch nbc) hacc'
      have hchnot : ch ∉ rest := (List.nodup_cons.mp hnd).1
      have hpres : ∀ j, reaches nodes0 ch j →
          (pbFold F nbc rest (propagateBreadcrumbs F acc ch nbc)).get? j =
          (propagateBreadcrumbs F acc ch nbc).get? j := by
        intro j hr
        refine hQ2 j ?_
        intro x hx hr'
        exact siblings_disjoint nodes0 wf (hcs x (List.mem_cons_of_mem ch hx)) hch
          (fun he => hchnot (he ▸ hx)) hr' hr
      refine ⟨?_, ?_, ?_⟩
      · rw [pbFold_cons]
        exact hQ1
      · intro j hnone
        rw [pbFold_cons]
        rw [hQ2 j (fun x hx => hnone x (List.mem_cons_of_mem ch hx))]
        exact hP1 j (hnone ch (List.mem_cons_self ch rest))
      · intro x hx j hr
        rcases List.mem_cons.mp hx with heq | hmem
        · subst heq
          constructor
          · intro hjch
            rw [pbFold_cons, hpres j hr]
            subst hjch
            exact hP2
          · intro hjch
            obtain ⟨p, hp1, hp2, hp3⟩ := hP3 j hr hjch
            refine ⟨p, hp1, hp2, ?_⟩
            rw [pbFold_cons, hpres j hr, hpres p hp2]
            exact hp3
        · have hthis := hQ3 x hmem j hr
          constructor
          · intro hjch
            rw [pbFold_cons]
            exact hthis.1 hjch
          · intro hjch
            rw [pbFold_cons]
            obtain ⟨p, hp1, hp2, hp3⟩ := hthis.2 hjch
            exact ⟨p, hp1, hp2, hp3⟩

/-- C2: the spec's local breadcrumb relation is correct on well-formed
graphs — after `compute_breadcrumbs`, the root's breadcrumbs are exactly
the trail derived from the document title (the title iff it is present
and non-empty), and every non-root node's breadcrumbs are its parent's
breadcrumbs, plus its own text when the node is a Section.  The
"consequently" sentence is wrong, however: a Section's final breadcrumbs
already END with its own text, so a descendant's breadcrumbs start with
`s.breadcrumbs` (proved here), not with `s.breadcrumbs ++ [s.text]`
(refuted by the counterexample). -/
theorem C2_breadcrumbs (g : DocumentGraph) (wf : wellFormedB g.nodes = true) :
    (((computeBreadcrumbs g).nodes.get? 0).map (fun x => x.breadcrumbs) =
      some (rootCrumbsOf g)) ∧
    (∀ j node, (computeBreadcrumbs g).nodes.get? j = some node → 0 < j →
      ∃ p pnode, node.parent = some p ∧
        (computeBreadcrumbs g).nodes.get? p = some pnode ∧
        node.breadcrumbs = pnode.breadcrumbs ++
          (if node.nodeType = "Section" then [node.text] else [])) ∧
    (∀ s d nodeS nodeD, descendantOf (computeBreadcrumbs g).nodes s d →
      (computeBreadcrumbs g).nodes.get? s = some nodeS →
      (computeBreadcrumbs g).nodes.get? d = some nodeD →
      ∃ suffix, nodeD.breadcrumbs = nodeS.breadcrumbs ++ suffix) := by
  have h0len := wf_len g.nodes wf
  obtain ⟨root, hroot⟩ : ∃ r, g.nodes.get? 0 = some r :=
    ⟨g.nodes.get ⟨0, h0len⟩, List.get?_eq_get h0len⟩
  have hrch : root.children = childrenOf g.nodes 0 := by
    unfold childrenOf
    rw [hroot]
    rfl
  have hset0 : (g.nodes.set 0 { root with breadcrumbs := rootCrumbsOf g }).get? 0 =
      some { root with breadcrumbs := rootCrumbsOf g } := by
    rw [List.get?_set_eq, hroot]
    rfl
  have hfin0 : (computeBreadcrumbs g).nodes =
      ((((g.nodes.set 0 { root with breadcrumbs := rootCrumbsOf g }).get? 0).map
        (fun r => r.children)).getD []).foldl
        (fun ns c => propagateBreadcrumbs g.nodes.length ns c (rootCrumbsOf g))
        (g.nodes.set 0 { root with breadcrumbs := rootCrumbsOf g }) := by
    simp only [computeBreadcrumbs, hroot]
    rfl
  have hfin : (computeBreadcrumbs g).nodes =
      pbFold g.nodes.length (rootCrumbsOf g) root.children
        (g.nodes.set 0 { root with breadcrumbs := rootCrumbsOf g }) := by
    rw [hfin0, hset0]
    rfl
  have hns1e : (g.nodes.set 0 { root with breadcrumbs := rootCrumbsOf g }).map eraseBC =
      g.nodes.map eraseBC := by
    rw [List.map_set]
    exact set_same _ _ _ (by rw [List.get?_map, hroot]; rfl)
  obtain ⟨hF1, hF2, hF3⟩ := pbFold_spec g.nodes wf g.nodes.length (rootCrumbsOf g)
    root.children 0 (fun ch hch => by rw [hrch] at hch; exact hch)
    (by rw [hrch]; exact wf_nodup g.nodes wf 0 h0len)
    (fun ch _ => by omega)
    (g.nodes.set 0 { root with breadcrumbs := rootCrumbsOf g }) hns1e
  have hEB : (computeBreadcrumbs g).nodes.map eraseBC = g.nodes.map eraseBC :=
    computeBreadcrumbs_eraseBC g
  have hlenf : (computeBreadcrumbs g).nodes.length = g.nodes.length := length_congr hEB
  have hA : ((computeBreadcrumbs g).nodes.get? 0).map (fun x => x.breadcrumbs) =
      some (rootCrumbsOf g) := by
    rw [hfin]
    have h00 : ∀ ch ∈ root.children, ¬ reaches g.nodes ch 0 := by
      intro ch hchm hr
      have hstepc : childStep g.nodes 0 ch := by rw [hrch] at hchm; exact hchm
      have h1 := reaches_le g.nodes wf _ _ hr
      have h2 := (childStep_facts g.nodes wf 0 ch hstepc).2.1
      omega
    rw [hF2 0 h00, hset0]
    rfl
  obtain ⟨rootF, hrootF, hrootFbc⟩ : ∃ r, (computeBreadcrumbs g).nodes.get? 0 = some r ∧
      r.breadcrumbs = rootCrumbsOf g := by
    cases hz : (computeBreadcrumbs g).nodes.get? 0 with
    | none => rw [hz] at hA; simp at hA
    | some r =>
        rw [hz] at hA
        simp only [Option.map_some', Option.some.injEq] at hA
        exact ⟨r, rfl, hA⟩
  have hB : ∀ j node, (computeBreadcrumbs g).nodes.get? j = some node → 0 < j →
      ∃ p pnode, node.parent = some p ∧
        (computeBreadcrumbs g).nodes.get? p = some pnode ∧
        node.breadcrumbs = pnode.breadcrumbs ++
          (if node.nodeType = "Section" then [node.text] else []) := by
    intro j node hj hj0
    have hjlen : j < g.nodes.length := by
      rw [← hlenf]
      by_contra hc
      rw [List.get?_eq_none.mpr (by omega)] at hj
      exact Option.noConfusion hj
    have hcrj : crumbOf g.nodes j =
        (if node.nodeType = "Section" then [node.text] else []) := by
      rw [← crumbOf_congr hEB j]
      exact crumbOf_eq_node hj
    have hreach0 : reaches g.nodes 0 j := root_reaches g.nodes wf j hjlen
    rcases Relation.ReflTransGen.cases_head hreach0 with heq | ⟨ch, hstep, hreach'⟩
    · omega
    · have hchm : ch ∈ root.children := by rw [hrch]; exact hstep
      by_cases hjch : j = ch
      · have hbcj := (hF3 ch hchm j hreach').1 hjch
        rw [← hfin, hj] at hbcj
        simp only [Option.map_some', Option.some.injEq] at hbcj
        have hpar : node.parent = some 0 := by
          have e1 : parentOf (computeBreadcrumbs g).nodes j = node.parent :=
            parentOf_eq_node hj
          have e2 := parentOf_congr hEB j
          have e3 : parentOf g.nodes j = some 0 := by
            rw [hjch]
            exact (childStep_facts g.nodes wf 0 ch hstep).1
          rw [← e1, e2, e3]
        refine ⟨0, rootF, hpar, hrootF, ?_⟩
        rw [hbcj, hrootFbc, hcrj]
      · obtain ⟨p, hp1, hp2, hp3⟩ := (hF3 ch hchm j hreach').2 hjch
        rw [← hfin, hj] at hp3
        cases hzp : (computeBreadcrumbs g).nodes.get? p with
        | none => rw [hzp] at hp3; simp at hp3
        | some pnode =>
            rw [hzp] at hp3
            simp only [Option.map_some', Option.some.injEq] at hp3
            have hpar : node.parent = some p := by
              have e1 : parentOf (computeBreadcrumbs g).nodes j = node.parent :=
                parentOf_eq_node hj
              have e2 := parentOf_congr hEB j
              rw [← e1, e2, hp1]
            refine ⟨p, pnode, hpar, hzp, ?_⟩
            rw [hp3, hcrj]
  have hchstep : ∀ a b, childStep (computeBreadcrumbs g).nodes a b →
      childStep g.nodes a b := by
    intro a b hab
    have hcc := childrenOf_congr hEB a
    show b ∈ childrenOf g.nodes a
    rw [← hcc]
    exact hab
  refine ⟨hA, hB, ?_⟩
  intro s d nodeS nodeD hdesc hs hd
  have hdesc' : Relation.TransGen (childStep (computeBreadcrumbs g).nodes) s d := hdesc
  have hC : ∀ e, Relation.TransGen (childStep (computeBreadcrumbs g).nodes) s e →
      ∀ ne, (computeBreadcrumbs g).nodes.get? e = some ne →
      ∃ suffix, ne.breadcrumbs = nodeS.breadcrumbs ++ suffix := by
    intro e hde
    induction hde with
    | @single b hstep =>
        intro nd hdb
        have hstep0 := hchstep _ _ hstep
        have hf := childStep_facts g.nodes wf _ _ hstep0
        obtain ⟨p, pnode, hpar, hpget, hrel⟩ := hB _ nd hdb hf.2.2.2
        have e1 : parentOf (computeBreadcrumbs g).nodes b = nd.parent :=
          parentOf_eq_node hdb
        have e3 : nd.parent = some s := by
          rw [← e1, parentOf_congr hEB b]
          exact hf.1
        have hps : p = s := Option.some.inj (hpar.symm.trans e3)
        have hpn : pnode = nodeS := by
          rw [hps] at hpget
          exact Option.some.inj (hpget.symm.trans hs)
        refine ⟨if nd.nodeType = "Section" then [nd.text] else [], ?_⟩
        rw [hrel, hpn]
    | @tail m b hd1 hstep ih =>
        intro nd hdb
        have hstep0 := hchstep _ _ hstep
        have hf := childStep_facts g.nodes wf _ _ hstep0
        have hmlen : m < (computeBreadcrumbs g).nodes.length := by
          rw [hlenf]
          have := hf.2.1
          have := hf.2.2.1
          omega
        obtain ⟨nm, hm⟩ : ∃ nm, (computeBreadcrumbs g).nodes.get? m = some nm :=
          ⟨(computeBreadcrumbs g).nodes.get ⟨m, hmlen⟩, List.get?_eq_get hmlen⟩
        obtain ⟨suffix, hsux⟩ := ih nm hm
        obtain ⟨p, pnode, hpar, hpget, hrel⟩ := hB _ nd hdb hf.2.2.2
        have e1 : parentOf (computeBreadcrumbs g).nodes b = nd.parent :=
          parentOf_eq_node hdb
        have e3 : nd.parent = some m := by
          rw [← e1, parentOf_congr hEB b]
          exact hf.1
        have hps : p = m := Option.some.inj (hpar.symm.trans e3)
        have hpn : pnode = nm := by
          rw [hps] at hpget
          exact Option.some.inj (hpget.symm.trans hm)
        refine ⟨suffix ++ (if nd.nodeType = "Section" then [nd.text] else []), ?_⟩
        rw [hrel, hpn, hsux, List.append_assoc]
  exact hC d hdesc' nodeD hd

/-- C2 counterexample: in the graph built from a section and its
paragraph, the Section node's final breadcrumbs are `["Head"]` (they
already end with its own text) and its descendant's breadcrumbs are
`["Head"]` as well — they do NOT start with
`s.breadcrumbs ++ [s.text] = ["Head", "Head"]`. -/
theorem C2_counterexample :
    (fixGraphTwo.nodes.get? 1).map (fun n => (n.nodeType, n.breadcrumbs, n.text)) =
      some ("Section", ["Head"], "Head") ∧
    descendantOf fixGraphTwo.nodes 1 2 ∧
    (fixGraphTwo.nodes.get? 2).map (fun n => n.breadcrumbs) = some ["Head"] ∧
    ¬ ∃ suffix, ["Head"] = (["Head"] ++ ["Head"]) ++ suffix := by
  refine ⟨by decide,
    Relation.TransGen.single (show (2 : Nat) ∈ childrenOf fixGraphTwo.nodes 1 by decide),
    by decide, ?_⟩
  rintro ⟨suffix, hsux⟩
  have hlen := congrArg List.length hsux
  simp only [List.length_append, List.length_cons, List.length_nil] at hlen
  omega

/-- C2 witness: the corrected theorem applied to a well-formed titled
graph (root, one Section child, one Paragraph grandchild). -/
theorem C2_witness :
    wellFormedB fixGraphTitled.nodes = true ∧
    ((((computeBreadcrumbs fixGraphTitled).nodes.get? 0).map (fun x => x.breadcrumbs) =
        some (rootCrumbsOf fixGraphTitled)) ∧
     (∀ j node, (computeBreadcrumbs fixGraphTitled).nodes.get? j = some node → 0 < j →
       ∃ p pnode, node.parent = some p ∧
         (computeBreadcrumbs fixGraphTitled).nodes.get? p = some pnode ∧
         node.breadcrumbs = pnode.breadcrumbs ++
           (if node.nodeType = "Section" then [node.text] else [])) ∧
     (∀ s d nodeS nodeD, descendantOf (computeBreadcrumbs fixGraphTitled).nodes s d →
       (computeBreadcrumbs fixGraphTitled).nodes.get? s = some nodeS →
       (computeBreadcrumbs fixGraphTitled).nodes.get? d = some nodeD →
       ∃ suffix, nodeD.breadcrumbs = nodeS.breadcrumbs ++ suffix)) :=
  ⟨by decide, C2_breadcrumbs fixGraphTitled (by decide)⟩

end Blazegraph
